import Mathlib

/-!
Verification of the duplicate-file scanner in `disk_scan/utils.py`.

The embedding models the filesystem surface the scanner consumes:

* a path (`pathlib.Path`) is a `PNode`: its canonical path string (`pid`,
  the identity used by Python sets of paths), its `stem` and `suffix`
  components, and the answer the filesystem gives about it (`EntryKind`):
  a regular file with its byte content, a directory with its stat size,
  or a path that is neither regular file nor directory (`other`) whose
  `stat()` either succeeds with a size (e.g. a socket) or raises
  (e.g. a broken symlink, modelled as `none`);
* bytes are `List Nat`; `hashlib.md5` is an external library, so digest
  computation is a parameter `md5 : Bytes → Bytes` of every definition
  that hashes — the code under verification only decides WHICH bytes are
  digested;
* fallible operations return `Except Unit`; `Except.error ()` models an
  uncaught Python exception, and a function whose Lean result is
  `Except.error ()` never reaches its `call_back` line, so the `.ok`
  payload is exactly the value delivered to the completion callback;
* a Python `dict` (insertion ordered) is an association list, and the
  `if d.get(k) == None: d[k] = [v] else: d[k].append(v)` idiom is
  `dictAppend`.
-/

/-- Bytes of a file, one `Nat` per byte (`bytes` in Python). -/
abbrev Bytes := List Nat

deriving instance DecidableEq for Except

/-- What the filesystem says about a path: a regular file and its content,
a directory (with its `stat().st_size`), or a path that is neither
(`other`), carrying `some size` when `stat()` succeeds (socket, device
file) and `none` when `stat()` raises (broken symlink, missing path). -/
inductive EntryKind where
  | file : Bytes → EntryKind
  | dir : Nat → EntryKind
  | other : Option Nat → EntryKind
deriving DecidableEq

/-- A `pathlib.Path` together with the (immutable during a scan)
filesystem answers about it. `pid` is the canonical path string, the
identity Python path sets use. -/
structure PNode where
  pid : String
  stem : String
  suffix : String
  kind : EntryKind
deriving DecidableEq

/-- `MD5_HEAD_SIZE = 10 * 1024 * 1024` (utils.py line 26). -/
def MD5_HEAD_SIZE : Nat := 10 * 1024 * 1024

/-- `MD5_TAIL_SIZE = 10 * 1024 * 1024` (utils.py line 27). -/
def MD5_TAIL_SIZE : Nat := 10 * 1024 * 1024

/-- `MD5_FILE_SIZE = MD5_HEAD_SIZE + MD5_TAIL_SIZE` (utils.py line 28). -/
def MD5_FILE_SIZE : Nat := MD5_HEAD_SIZE + MD5_TAIL_SIZE

/-- `node.stat().st_size`: the byte length of a regular file, the stat
size of a directory, and for `other` paths the stat result when it
exists — a broken symlink or missing path raises (`Except.error`). -/
def st_size (node : PNode) : Except Unit Nat :=
  match node.kind with
  | .file c => .ok c.length
  | .dir sz => .ok sz
  | .other (some sz) => .ok sz
  | .other none => .error ()

/-- `EntryKind.isDir`: `node.is_dir()`. -/
def EntryKind.isDir : EntryKind → Bool
  | .dir _ => true
  | _ => false

/-- Python truthy membership `l and s in l` for an optional list `l`
(`None` and the empty list are falsy, so both give `false`). -/
def optContains (l : Option (List String)) (s : String) : Bool :=
  match l with
  | none => false
  | some xs => xs.contains s

/-- The `skip_me` flag of `read_file_size` (utils.py lines 454-460):
directories are skipped, as are nodes whose lowercased stem or suffix is
in the corresponding ignore list. -/
def skip_me (node : PNode) (_ignore_stem _ignore_suffix : Option (List String)) : Bool :=
  node.kind.isDir
    || optContains _ignore_stem node.stem.toLower
    || optContains _ignore_suffix node.suffix.toLower

/-- `read_file_size` (utils.py lines 452-466): `None` when skipped,
otherwise `node.stat().st_size` — which raises for a path whose `stat()`
fails (the code never checks `is_file()` here). -/
def read_file_size (node : PNode) (_ignore_stem _ignore_suffix : Option (List String)) :
    Except Unit (Option Nat) :=
  if skip_me node _ignore_stem _ignore_suffix then .ok none
  else
    match st_size node with
    | .error e => .error e
    | .ok how_big => .ok (some how_big)

/-- `calc_file_md5` (utils.py lines 469-490), with the digest function as
a parameter. For a regular file of content `c`: secure mode digests all
of `c` (`node.read_bytes()`); otherwise when `st_size > MD5_FILE_SIZE`
the digested bytes are `f.read(MD5_HEAD_SIZE)` — the first
`MD5_HEAD_SIZE` bytes — followed by the bytes after
`f.seek(-MD5_TAIL_SIZE, SEEK_END)` — the last `MD5_TAIL_SIZE` bytes;
otherwise all of `c`. For a non-file, `read_bytes` / `open(node, 'rb')`
raises. -/
def calc_file_md5 (md5 : Bytes → Bytes) (node : PNode) (secure : Bool) :
    Except Unit Bytes :=
  match node.kind with
  | .file c =>
    let b :=
      if secure then c
      else if c.length > MD5_FILE_SIZE then
        c.take MD5_HEAD_SIZE ++ c.drop (c.length - MD5_TAIL_SIZE)
      else c
    .ok (md5 b)
  | _ => .error ()

/-- `filter_by_suffixes` (utils.py lines 165-182). The result is
`Except` (configuration errors) of `Option` (the function body has no
`return` on the path where the provided list is empty, so Python yields
`None` rather than a set). -/
def filter_by_suffixes (nodes : List PNode) (incl excl : Option (List String)) :
    Except Unit (Option (List PNode)) :=
  if incl = none ∧ excl = none then .error ()
  else if incl ≠ none ∧ excl ≠ none then .error ()
  else
    match incl, excl with
    | some (s :: l), _ =>
      let low := (s :: l).map String.toLower
      .ok (some (nodes.filter fun x => !x.kind.isDir && low.contains x.suffix.toLower))
    | _, some (s :: l) =>
      let low := (s :: l).map String.toLower
      .ok (some (nodes.filter fun x => !x.kind.isDir && !low.contains x.suffix.toLower))
    | _, _ => .ok none

/-- Modelled from the spec words of claim C5 (the amended reading): the
intended outcome table of `filter_by_suffixes`, used to compare the code
against the claim case by case. -/
def filter_by_suffixes_expected (nodes : List PNode) (incl excl : Option (List String)) :
    Except Unit (Option (List PNode)) :=
  match incl, excl with
  | none, none => .error ()
  | some _, some _ => .error ()
  | some [], none => .ok none
  | none, some [] => .ok none
  | some l, none =>
    let low := l.map String.toLower
    .ok (some (nodes.filter fun x => !x.kind.isDir && low.contains x.suffix.toLower))
  | none, some l =>
    let low := l.map String.toLower
    .ok (some (nodes.filter fun x => !x.kind.isDir && !low.contains x.suffix.toLower))

section DictModel

variable {κ : Type} {α : Type} [DecidableEq κ]

/-- The `if d.get(k) == None: d[k] = [v] else: d[k].append(v)` idiom on an
insertion-ordered dict. -/
def dictAppend (d : List (κ × List α)) (k : κ) (v : α) : List (κ × List α) :=
  if d.any (fun kv => decide (kv.1 = k)) then
    d.map (fun kv => if kv.1 = k then (kv.1, kv.2 ++ [v]) else kv)
  else d ++ [(k, [v])]

/-- `d.get(k)` returning `[]` for a missing key (our dicts never store an
empty list, so no information is lost). -/
def bucket (d : List (κ × List α)) (k : κ) : List α :=
  (((d.find? fun kv => decide (kv.1 = k)).map Prod.snd).getD [])

/-- All values of the dict, concatenated in entry order. -/
def valsJoin (d : List (κ × List α)) : List α :=
  d.flatMap Prod.snd

/-- Keys of a dict. -/
def dkeys (d : List (κ × List α)) : List κ := d.map Prod.fst

end DictModel

/-- The `if ignore_stem: _ignore_stem = [str(x).lower() for x in ignore_stem]`
normalisation at the top of both engines (utils.py lines 510-516 and
575-581): `None` and the empty list stay `None`, a nonempty list is
lowercased. -/
def normIgnore : Option (List String) → Option (List String)
  | none => none
  | some [] => none
  | some l => some (l.map String.toLower)

/-- The size map of the duplicate engines, written as the sequential loop
of `find_duplicates` (utils.py lines 521-531): for each node in order,
read its size; skip `None`; otherwise append the node to the bucket of
its size. Reading a size can raise, which aborts the loop. -/
def build_size_map (_ignore_stem _ignore_suffix : Option (List String)) :
    List PNode → List (Nat × List PNode) → Except Unit (List (Nat × List PNode))
  | [], big => .ok big
  | node :: rest, big =>
    match read_file_size node _ignore_stem _ignore_suffix with
    | .error e => .error e
    | .ok none => build_size_map _ignore_stem _ignore_suffix rest big
    | .ok (some how_big) =>
      build_size_map _ignore_stem _ignore_suffix rest (dictAppend big how_big node)

/-- `pool.starmap(f, args)`: apply `f` to every argument, collecting the
results in order; a raising task makes the whole call raise (the pool
re-raises the first failing task). -/
def mapExcept {α β : Type} (f : α → Except Unit β) : List α → Except Unit (List β)
  | [] => .ok []
  | a :: rest =>
    match f a with
    | .error e => .error e
    | .ok b =>
      match mapExcept f rest with
      | .error e => .error e
      | .ok bs => .ok (b :: bs)

/-- The size map of `find_duplicates_2` (utils.py lines 586-597):
`pool.starmap(read_file_size, args)` computes all sizes (raising the
first failure), then `zip(nodes, node_sizes)` is merged single-threaded
into the dict. -/
def size_map_2 (_ignore_stem _ignore_suffix : Option (List String)) (nodes : List PNode) :
    Except Unit (List (Nat × List PNode)) :=
  match mapExcept (fun node => read_file_size node _ignore_stem _ignore_suffix) nodes with
  | .error e => .error e
  | .ok node_sizes =>
    .ok ((nodes.zip node_sizes).foldl
      (fun big p =>
        match p.2 with
        | none => big
        | some sz => dictAppend big sz p.1) [])

/-- The inner loop of the hashing phase of `find_duplicates` (utils.py
lines 542-549): for each node of one size bucket, yield `f'r{node}'`,
compute its digest (which can raise), and append it to the md5 dict. -/
def md5_inner (md5 : Bytes → Bytes) (secure : Bool) :
    List PNode → List (Bytes × List PNode) → Except Unit (List String × List (Bytes × List PNode))
  | [], m => .ok ([], m)
  | node :: rest, m =>
    match calc_file_md5 md5 node secure with
    | .error e => .error e
    | .ok k =>
      match md5_inner md5 secure rest (dictAppend m k node) with
      | .error e => .error e
      | .ok (ys, m2) => .ok (("r" ++ node.pid) :: ys, m2)

/-- The outer loop of the hashing phase of `find_duplicates` (utils.py
lines 540-549), over the surviving size buckets. -/
def md5_outer (md5 : Bytes → Bytes) (secure : Bool) :
    List (Nat × List PNode) → List (Bytes × List PNode) →
    Except Unit (List String × List (Bytes × List PNode))
  | [], m => .ok ([], m)
  | (_sz, paths) :: rest, m =>
    match md5_inner md5 secure paths m with
    | .error e => .error e
    | .ok (ys1, m1) =>
      match md5_outer md5 secure rest m1 with
      | .error e => .error e
      | .ok (ys2, m2) => .ok (ys1 ++ ys2, m2)

/-- The hashing phase of `find_duplicates_2` (utils.py lines 605-625):
per size bucket, `bag_counter` (initially 100) is decremented when
positive, otherwise the loop yields `f'bytes {_size}'` and resets it to
100; then the whole bucket is hashed by `pool.starmap` (raising the
first failure) and merged into the md5 dict in order. -/
def md5_outer_2 (md5 : Bytes → Bytes) (secure : Bool) :
    List (Nat × List PNode) → Nat → List (Bytes × List PNode) →
    Except Unit (List String × List (Bytes × List PNode))
  | [], _bag_counter, m => .ok ([], m)
  | (sz, paths) :: rest, bag_counter, m =>
    let ys0 : List String := if 0 < bag_counter then [] else ["bytes " ++ toString sz]
    let bag2 := if 0 < bag_counter then bag_counter - 1 else 100
    match mapExcept (fun x => calc_file_md5 md5 x secure) paths with
    | .error e => .error e
    | .ok k_list =>
      let m1 := (paths.zip k_list).foldl (fun acc p => dictAppend acc p.2 p.1) m
      match md5_outer_2 md5 secure rest bag2 m1 with
      | .error e => .error e
      | .ok (ys2, m2) => .ok (ys0 ++ ys2, m2)

/-- `find_duplicates` (utils.py lines 493-555). The returned pair is
(the yielded progress strings, the dict passed to `call_back`); an
`Except.error` result means an exception escaped and `call_back` was
never invoked. -/
def find_duplicates (md5 : Bytes → Bytes) (nodes : List PNode)
    (ignore_stem ignore_suffix : Option (List String)) (secure : Bool) :
    Except Unit (List String × List (Bytes × List PNode)) :=
  let _is := normIgnore ignore_stem
  let _ix := normIgnore ignore_suffix
  match build_size_map _is _ix nodes [] with
  | .error e => .error e
  | .ok big =>
    let filtered_big := big.filter fun kv => decide (1 < kv.2.length)
    match md5_outer md5 secure filtered_big [] with
    | .error e => .error e
    | .ok (ys, md5_big) =>
      .ok (ys, md5_big.filter fun kv => decide (1 < kv.2.length))

/-- `find_duplicates_2` (utils.py lines 558-631), batch engine: same
result contract as `find_duplicates`, with the pooled sizing phase and
the `bag_counter` progress cadence. -/
def find_duplicates_2 (md5 : Bytes → Bytes) (nodes : List PNode)
    (ignore_stem ignore_suffix : Option (List String)) (secure : Bool) :
    Except Unit (List String × List (Bytes × List PNode)) :=
  let _is := normIgnore ignore_stem
  let _ix := normIgnore ignore_suffix
  match size_map_2 _is _ix nodes with
  | .error e => .error e
  | .ok big =>
    let filtered_big := big.filter fun kv => decide (1 < kv.2.length)
    match md5_outer_2 md5 secure filtered_big 100 [] with
    | .error e => .error e
    | .ok (ys, md5_big) =>
      .ok (ys, md5_big.filter fun kv => decide (1 < kv.2.length))

/-- The exact list of arguments on which the hashing phase of either
engine invokes `calc_file_md5`: the members of the size buckets that
survive the `len(value) > 1` filter, in bucket order (utils.py lines
534, 540-544 and 600, 609-619). -/
def hashed_files (nodes : List PNode) (_ignore_stem _ignore_suffix : Option (List String)) :
    Except Unit (List PNode) :=
  match build_size_map _ignore_stem _ignore_suffix nodes [] with
  | .error e => .error e
  | .ok big => .ok ((big.filter fun kv => decide (1 < kv.2.length)).flatMap Prod.snd)

/-- The number of size buckets that survive the `len(value) > 1` filter —
the iteration count of the `bag_counter` loop of `find_duplicates_2`. -/
def surviving_buckets (nodes : List PNode) (_ignore_stem _ignore_suffix : Option (List String)) :
    Except Unit Nat :=
  match build_size_map _ignore_stem _ignore_suffix nodes [] with
  | .error e => .error e
  | .ok big => .ok (big.filter fun kv => decide (1 < kv.2.length)).length


/-- Does the sizing phase give this node a size (a non-`None`,
non-raising `read_file_size`)? -/
def sizedB (_is _ix : Option (List String)) (node : PNode) : Bool :=
  match read_file_size node _is _ix with
  | .ok (some _) => true
  | _ => false

/-- Concrete input for the progress-cadence counterexample: 50 pairs of
one-byte files (contents `[i]`), i.e. 100 candidate files, all of byte
length 1 and therefore all in a single size bucket. -/
def c3_nodes : List PNode :=
  (List.range 50).flatMap (fun i =>
    [{ pid := "a" ++ toString i, stem := "", suffix := "", kind := .file [i] },
     { pid := "b" ++ toString i, stem := "", suffix := "", kind := .file [i] }])

/-- Two duplicate one-byte files, used by witnesses. -/
def wa : PNode := { pid := "/a", stem := "a", suffix := "", kind := .file [0] }

/-- Second of the two duplicate one-byte files used by witnesses. -/
def wb : PNode := { pid := "/b", stem := "b", suffix := "", kind := .file [0] }

/-- A subtree of the filesystem as the walkers observe it. Node labels
are `Nat` identifiers standing for canonical path strings (`resolve()`
happens once, at walk start). A `dir` carries `ok = false` when listing
it (`iterdir`) raises — permission denied or I/O error; `other` is a
path that answers false to both `is_file()` and `is_dir()` (broken
symlink, socket) and is therefore classified by neither walker. -/
inductive FsTree where
  | file : Nat → FsTree
  | other : Nat → FsTree
  | dir : Nat → Bool → List FsTree → FsTree

/-- The canonical path of the root node of a subtree. -/
def FsTree.info : FsTree → Nat
  | .file i => i
  | .other i => i
  | .dir i _ _ => i

mutual

/-- Number of nodes of a subtree (termination measure for the walkers). -/
def tsize : FsTree → Nat
  | .file _ => 1
  | .other _ => 1
  | .dir _ _ cs => 1 + tlistsize cs

/-- Number of nodes of a list of subtrees. -/
def tlistsize : List FsTree → Nat
  | [] => 0
  | t :: ts => tsize t + tlistsize ts

end

/-- The `files_list` half of `_scan_dir` (utils.py lines 239-257): the
immediate children of the node that are regular files, in listing order;
empty when the node is not a listable directory (`iterdir` raising is
swallowed by the bare `except`). -/
def scanDirFiles : FsTree → List Nat
  | .dir _ true cs =>
    cs.filterMap (fun c => match c with | .file i => some i | _ => none)
  | _ => []

/-- The `dirs_list` half of `_scan_dir`: the immediate children that are
directories (with their subtrees, to be listed in a later round); empty
when the node is not a listable directory. Children that are neither
file nor directory are skipped (`else: pass`). -/
def scanDirDirs : FsTree → List FsTree
  | .dir _ true cs =>
    cs.filter (fun c => match c with | .dir _ _ _ => true | _ => false)
  | _ => []

/-- The round loop of `scan_2` (utils.py lines 272-291): each round
resolves the whole frontier of unresolved directories (`pool.map` of
`_scan_dir`), appends the discovered files to `resolved_files` and the
discovered directories to the next frontier, then yields
`len(resolved_files) + len(resolved_dirs)`. Returns (the yielded
totals, resolved_files, resolved_dirs). -/
def scan2Go (unresolved_dirs : List FsTree) (resolved_files resolved_dirs : List Nat) :
    List Nat × List Nat × List Nat :=
  match unresolved_dirs with
  | [] => ([], resolved_files, resolved_dirs)
  | t :: rest =>
    let ds := resolved_dirs ++ (t :: rest).map FsTree.info
    let fs := resolved_files ++ (t :: rest).flatMap scanDirFiles
    let next := (t :: rest).flatMap scanDirDirs
    let total := fs.length + ds.length
    let r := scan2Go next fs ds
    (total :: r.1, r.2.1, r.2.2)
termination_by tlistsize unresolved_dirs
decreasing_by
  have happ : ∀ (a b : List FsTree), tlistsize (a ++ b) = tlistsize a + tlistsize b := by
    intro a b
    induction a with
    | nil => simp [tlistsize]
    | cons x xs ih => simp [tlistsize, ih]; omega
  have hfilter : ∀ (ms : List FsTree) (p : FsTree → Bool),
      tlistsize (ms.filter p) ≤ tlistsize ms := by
    intro ms p
    induction ms with
    | nil => simp
    | cons x xs ih =>
      by_cases hx : p x = true
      · rw [List.filter_cons_of_pos hx]
        simp only [tlistsize]
        omega
      · rw [List.filter_cons_of_neg (by simpa using hx)]
        simp only [tlistsize]
        have hx1 : 1 ≤ tsize x := by cases x <;> simp [tsize]
        omega
  have hone : ∀ (u : FsTree), tlistsize (scanDirDirs u) + 1 ≤ tsize u := by
    intro u
    cases u with
    | file i => simp [scanDirDirs, tsize, tlistsize]
    | other i => simp [scanDirDirs, tsize, tlistsize]
    | dir i ok cs =>
      cases ok with
      | false => simp [scanDirDirs, tsize, tlistsize]
      | true =>
        simp only [scanDirDirs, tsize]
        refine le_trans (Nat.add_le_add_right (hfilter cs _) 1) ?_
        omega
  have hlist : ∀ (l : List FsTree), tlistsize (l.flatMap scanDirDirs) + l.length ≤ tlistsize l := by
    intro l
    induction l with
    | nil => simp [tlistsize]
    | cons x xs ih =>
      simp only [List.flatMap_cons, happ, tlistsize, List.length_cons]
      have := hone x
      omega
  have hmain : ∀ (l : List FsTree), l.length ≠ 0 →
      tlistsize (l.flatMap scanDirDirs) < tlistsize l := by
    intro l hl
    have := hlist l
    omega
  exact hmain _ (by simp)

/-- `scan_2` (utils.py lines 260-299): the pair of (yielded running
totals, the node set handed to `call_back`). The root is resolved once
and seeds the frontier; at the end `resolved_dirs` then `resolved_files`
are poured into the `all_nodes` set. -/
def scan_2 (root : FsTree) : List Nat × Finset Nat :=
  let r := scan2Go [root] [] []
  (r.1, (r.2.2 ++ r.2.1).toFinset)

/-- The while loop of `scan` (utils.py lines 321-345): pop the front of
`unresolved`, count it, yield the count at every multiple of 100, record
files and directories in `all_nodes` (a node that is neither is counted
but not recorded), and push the children of a listable directory at the
back of the queue. Returns (yields so far, final total, recorded
nodes). -/
def scanGo (unresolved : List FsTree) (total_sum : Nat) (all_nodes : List Nat) :
    List Nat × Nat × List Nat :=
  match unresolved with
  | [] => ([], total_sum, all_nodes)
  | current :: rest =>
    let total2 := total_sum + 1
    let pre : List Nat := if total2 % 100 = 0 then [total2] else []
    match current with
    | .file i =>
      let r := scanGo rest total2 (all_nodes ++ [i])
      (pre ++ r.1, r.2.1, r.2.2)
    | .other _ =>
      let r := scanGo rest total2 all_nodes
      (pre ++ r.1, r.2.1, r.2.2)
    | .dir i ok cs =>
      let r := scanGo (rest ++ (if ok then cs else [])) total2 (all_nodes ++ [i])
      (pre ++ r.1, r.2.1, r.2.2)
termination_by tlistsize unresolved
decreasing_by
  · simp only [tlistsize, tsize]
    omega
  · simp only [tlistsize, tsize]
    omega
  · have happ : ∀ (a c : List FsTree), tlistsize (a ++ c) = tlistsize a + tlistsize c := by
      intro a c
      induction a with
      | nil => simp [tlistsize]
      | cons x xs ih => simp [tlistsize, ih]; omega
    rename_i b cs
    cases b with
    | false =>
      simp [tlistsize, tsize, happ]
    | true =>
      simp [tlistsize, tsize, happ]
      omega

/-- `scan` (utils.py lines 302-349): yields at every 100 processed
nodes plus one final yield of the total, and hands `all_nodes` to
`call_back`. -/
def scan (root : FsTree) : List Nat × Finset Nat :=
  let r := scanGo [root] 0 []
  (r.1 ++ [r.2.1], r.2.2.toFinset)

mutual

/-- The canonical paths `scan_2` records when a frontier element `t` is
resolved: `t` itself (every frontier member lands in `resolved_dirs`,
whatever its kind), plus — when `t` is a listable directory — its file
children and, recursively, everything below its directory children.
Children that are neither file nor directory are skipped. -/
def visited2 : FsTree → List Nat
  | .file i => [i]
  | .other i => [i]
  | .dir i ok cs => i :: (if ok then childV2 cs else [])

/-- Contribution of the children list of a listable directory. -/
def childV2 : List FsTree → List Nat
  | [] => []
  | .file i :: ts => i :: childV2 ts
  | .other _ :: ts => childV2 ts
  | .dir i ok cs :: ts => visited2 (.dir i ok cs) ++ childV2 ts

end

mutual

/-- The canonical paths `scan` records from one queued subtree: files
and directories, but not `other` nodes (counted yet never added to
`all_nodes`), and nothing below an unlistable directory. -/
def visitedScan : FsTree → List Nat
  | .file i => [i]
  | .other _ => []
  | .dir i ok cs => i :: (if ok then visitedScanL cs else [])

/-- `visitedScan` over a children list. -/
def visitedScanL : List FsTree → List Nat
  | [] => []
  | t :: ts => visitedScan t ++ visitedScanL ts

end

mutual

/-- How many queue pops `scan` performs on one subtree: every node of
any kind reached through listable directories, `other` nodes included. -/
def countScan : FsTree → Nat
  | .file _ => 1
  | .other _ => 1
  | .dir _ ok cs => 1 + (if ok then countScanL cs else 0)

/-- `countScan` over a children list. -/
def countScanL : List FsTree → Nat
  | [] => 0
  | t :: ts => countScan t + countScanL ts

end

mutual

/-- Is every node reachable by `scan` (through listable directories) a
regular file or a directory? When true, every node `scan` counts is
also recorded. -/
def allGood : FsTree → Bool
  | .file _ => true
  | .other _ => false
  | .dir _ ok cs => !ok || allGoodL cs

/-- `allGood` over a children list. -/
def allGoodL : List FsTree → Bool
  | [] => true
  | t :: ts => allGood t && allGoodL ts

end

/-- One step of the walk reaching a failing directory: `PruneOne d t t2`
holds when `t2` is `t` with the children of exactly one directory whose
listing raises (`ok = false`, canonical path `d`) replaced by the empty
list, and that directory sits at an arbitrary depth below the root of
`t`, reachable through a chain of listable (`ok = true`) directories —
i.e. it is a directory `scan_2` actually lists (and fails to list)
during a walk rooted at `t`. -/
inductive PruneOne : Nat → FsTree → FsTree → Prop where
  | here (d : Nat) (cs : List FsTree) :
      PruneOne d (.dir d false cs) (.dir d false [])
  | under (d : Nat) (c c2 : FsTree) (i : Nat) (pre post : List FsTree) :
      PruneOne d c c2 →
      PruneOne d (.dir i true (pre ++ c :: post)) (.dir i true (pre ++ c2 :: post))

section DictLemmas

variable {κ : Type} {α : Type} [DecidableEq κ]

theorem upd_map_eq_self (d : List (κ × List α)) (k : κ) (v : α)
    (h : ∀ kv ∈ d, kv.1 ≠ k) :
    (d.map fun kv => if kv.1 = k then (kv.1, kv.2 ++ [v]) else kv) = d := by
  induction d with
  | nil => rfl
  | cons hd rest ih =>
    simp only [List.map_cons, if_neg (h hd (List.mem_cons_self hd rest))]
    rw [ih (fun kv hkv => h kv (List.mem_cons_of_mem hd hkv))]

theorem not_mem_keys_of_any_false (d : List (κ × List α)) (k : κ)
    (h : ¬ (d.any fun kv => decide (kv.1 = k)) = true) :
    ∀ kv ∈ d, kv.1 ≠ k := by
  intro kv hkv hcon
  exact h (List.any_eq_true.mpr ⟨kv, hkv, decide_eq_true hcon⟩)

theorem valsJoin_dictAppend_perm (d : List (κ × List α)) (k : κ) (v : α)
    (hnd : (dkeys d).Nodup) :
    (valsJoin (dictAppend d k v)).Perm (v :: valsJoin d) := by
  unfold dictAppend
  split
  case isTrue hany =>
    induction d with
    | nil => simp at hany
    | cons hd rest ih =>
      simp only [dkeys, List.map_cons, List.nodup_cons] at hnd
      by_cases h : hd.1 = k
      · have hrest : ∀ kv ∈ rest, kv.1 ≠ k := by
          intro kv hkv hcon
          exact hnd.1 (h ▸ hcon ▸ List.mem_map.mpr ⟨kv, hkv, rfl⟩)
        simp only [List.map_cons, if_pos h, upd_map_eq_self rest k v hrest]
        simp only [valsJoin, List.flatMap_cons, List.append_assoc]
        have hswap := (@List.perm_append_comm _ hd.2 [v]).append_right
          (rest.flatMap Prod.snd)
        simp only [List.singleton_append, List.cons_append, List.append_assoc] at hswap ⊢
        exact hswap
      · simp only [List.map_cons, if_neg h]
        have hany' : (rest.any fun kv => decide (kv.1 = k)) = true := by
          rcases List.any_eq_true.mp hany with ⟨kv, hkv, hdec⟩
          rcases List.mem_cons.mp hkv with h1 | h2
          · exact absurd (of_decide_eq_true (h1 ▸ hdec)) h
          · exact List.any_eq_true.mpr ⟨kv, h2, hdec⟩
        have hp := ih hnd.2 hany'
        simp only [valsJoin, List.flatMap_cons] at hp ⊢
        have hstep := hp.append_left hd.2
        have hswap := (@List.perm_append_comm _ hd.2 [v]).append_right
          (rest.flatMap Prod.snd)
        refine hstep.trans ?_
        simp only [List.singleton_append, List.cons_append, List.append_assoc] at hswap ⊢
        exact hswap
  case isFalse hany =>
    simp only [valsJoin, List.flatMap_append, List.flatMap_cons, List.flatMap_nil]
    simp only [List.append_nil]
    exact List.perm_append_comm

theorem bucket_dictAppend_self (d : List (κ × List α)) (k : κ) (v : α)
    (hnd : (dkeys d).Nodup) :
    bucket (dictAppend d k v) k = bucket d k ++ [v] := by
  unfold dictAppend
  split
  case isTrue hany =>
    induction d with
    | nil => simp at hany
    | cons hd rest ih =>
      simp only [dkeys, List.map_cons, List.nodup_cons] at hnd
      by_cases h : hd.1 = k
      · have hrest : ∀ kv ∈ rest, kv.1 ≠ k := by
          intro kv hkv hcon
          exact hnd.1 (h ▸ hcon ▸ List.mem_map.mpr ⟨kv, hkv, rfl⟩)
        simp only [List.map_cons, if_pos h, upd_map_eq_self rest k v hrest]
        unfold bucket
        rw [List.find?_cons_of_pos _ (by simpa using h),
          List.find?_cons_of_pos _ (by simpa using h)]
        simp
      · simp only [List.map_cons, if_neg h]
        have hany' : (rest.any fun kv => decide (kv.1 = k)) = true := by
          rcases List.any_eq_true.mp hany with ⟨kv, hkv, hdec⟩
          rcases List.mem_cons.mp hkv with h1 | h2
          · exact absurd (of_decide_eq_true (h1 ▸ hdec)) h
          · exact List.any_eq_true.mpr ⟨kv, h2, hdec⟩
        have := ih hnd.2 hany'
        unfold bucket at this ⊢
        rw [List.find?_cons_of_neg _ (by simpa using h),
          List.find?_cons_of_neg _ (by simpa using h)]
        exact this
  case isFalse hany =>
    unfold bucket
    have hnone : d.find? (fun kv => decide (kv.1 = k)) = none := by
      rw [List.find?_eq_none]
      intro kv hkv hdec
      exact not_mem_keys_of_any_false d k hany kv hkv (of_decide_eq_true hdec)
    rw [List.find?_append, hnone]
    rw [List.find?_cons_of_pos _ (by simp)]
    simp [hnone]

theorem bucket_dictAppend_other (d : List (κ × List α)) (k k' : κ) (v : α) (h : k' ≠ k) :
    bucket (dictAppend d k v) k' = bucket d k' := by
  unfold dictAppend
  split
  case isTrue hany =>
    induction d with
    | nil => simp
    | cons hd rest ih =>
      by_cases hk : hd.1 = k
      · simp only [List.map_cons, if_pos hk]
        unfold bucket
        have hne : ¬ hd.1 = k' := by rw [hk]; exact Ne.symm h
        rw [List.find?_cons_of_neg _ (by simpa using hne),
          List.find?_cons_of_neg _ (by simpa using hne)]
        by_cases hrest : (rest.any fun kv => decide (kv.1 = k)) = true
        · exact ih hrest
        · rw [upd_map_eq_self rest k v (not_mem_keys_of_any_false rest k hrest)]
      · simp only [List.map_cons, if_neg hk]
        unfold bucket
        by_cases hk' : hd.1 = k'
        · rw [List.find?_cons_of_pos _ (by simpa using hk'),
            List.find?_cons_of_pos _ (by simpa using hk')]
        · rw [List.find?_cons_of_neg _ (by simpa using hk'),
            List.find?_cons_of_neg _ (by simpa using hk')]
          by_cases hrest : (rest.any fun kv => decide (kv.1 = k)) = true
          · exact ih hrest
          · rw [upd_map_eq_self rest k v (not_mem_keys_of_any_false rest k hrest)]
  case isFalse hany =>
    unfold bucket
    rw [List.find?_append]
    have h1 : List.find? (fun kv => decide (kv.1 = k')) [(k, [v])] = none := by
      rw [List.find?_eq_none]
      intro kv hkv hdec
      simp at hkv
      subst hkv
      exact h (of_decide_eq_true hdec).symm
    rw [h1]
    cases List.find? (fun kv => decide (kv.1 = k')) d <;> simp

theorem dictAppend_keys_nodup (d : List (κ × List α)) (k : κ) (v : α)
    (h : (dkeys d).Nodup) : (dkeys (dictAppend d k v)).Nodup := by
  unfold dictAppend
  split
  case isTrue hany =>
    have : dkeys (d.map fun kv => if kv.1 = k then (kv.1, kv.2 ++ [v]) else kv) = dkeys d := by
      unfold dkeys
      rw [List.map_map]
      apply List.map_congr_left
      intro kv _
      by_cases hk : kv.1 = k <;> simp [hk]
    rw [this]; exact h
  case isFalse hany =>
    unfold dkeys at *
    rw [List.map_append]
    apply List.Nodup.append h (by simp)
    intro a ha hb
    simp at hb
    subst hb
    rcases List.mem_map.mp ha with ⟨kv, hkv, hfst⟩
    exact not_mem_keys_of_any_false d a hany kv hkv hfst

theorem bucket_of_mem (d : List (κ × List α)) (kv : κ × List α)
    (hmem : kv ∈ d) (hnd : (dkeys d).Nodup) : bucket d kv.1 = kv.2 := by
  induction d with
  | nil => simp at hmem
  | cons hd rest ih =>
    simp only [dkeys, List.map_cons, List.nodup_cons] at hnd
    rcases List.mem_cons.mp hmem with h1 | h2
    · subst h1
      unfold bucket
      rw [List.find?_cons_of_pos _ (by simp)]
      simp
    · have hk : ¬ hd.1 = kv.1 := by
        intro hcon
        exact hnd.1 (hcon ▸ List.mem_map.mpr ⟨kv, h2, rfl⟩)
      unfold bucket
      rw [List.find?_cons_of_neg _ (by simpa using hk)]
      exact ih h2 hnd.2

theorem mem_of_bucket_ne_nil (d : List (κ × List α)) (k : κ)
    (h : bucket d k ≠ []) : (k, bucket d k) ∈ d := by
  unfold bucket at h ⊢
  cases hf : d.find? (fun kv => decide (kv.1 = k)) with
  | none => rw [hf] at h; simp at h
  | some kv =>
    have hmem := List.mem_of_find?_eq_some hf
    have hp := List.find?_some hf
    have hkey : kv.1 = k := by simpa using hp
    simpa [← hkey] using hmem

end DictLemmas

section SizeMapLemmas

theorem build_size_map_keys_nodup (_is _ix : Option (List String)) (ns : List PNode)
    (d big : List (Nat × List PNode)) (h : build_size_map _is _ix ns d = .ok big)
    (hnd : (dkeys d).Nodup) : (dkeys big).Nodup := by
  induction ns generalizing d with
  | nil =>
    unfold build_size_map at h
    cases h
    exact hnd
  | cons n rest ih =>
    unfold build_size_map at h
    cases hr : read_file_size n _is _ix with
    | error e => rw [hr] at h; cases h
    | ok sz =>
      rw [hr] at h
      cases sz with
      | none => exact ih d h hnd
      | some v => exact ih _ h (dictAppend_keys_nodup d v n hnd)

theorem build_size_map_bucket (_is _ix : Option (List String)) (ns : List PNode)
    (d big : List (Nat × List PNode)) (h : build_size_map _is _ix ns d = .ok big)
    (hnd : (dkeys d).Nodup) (k : Nat) :
    bucket big k
      = bucket d k ++ ns.filter (fun n => decide (read_file_size n _is _ix = .ok (some k))) := by
  induction ns generalizing d with
  | nil =>
    unfold build_size_map at h
    cases h
    simp
  | cons n rest ih =>
    unfold build_size_map at h
    cases hr : read_file_size n _is _ix with
    | error e => rw [hr] at h; cases h
    | ok sz =>
      rw [hr] at h
      cases sz with
      | none =>
        rw [List.filter_cons_of_neg (by simp [hr])]
        exact ih d h hnd
      | some v =>
        have ihv := ih (dictAppend d v n) h (dictAppend_keys_nodup d v n hnd)
        by_cases hk : v = k
        · subst hk
          rw [List.filter_cons_of_pos (by simp [hr])]
          rw [ihv, bucket_dictAppend_self d v n hnd]
          simp
        · rw [List.filter_cons_of_neg (by simp [hr, hk])]
          rw [ihv, bucket_dictAppend_other d v k n (Ne.symm hk)]

theorem build_size_map_vals (_is _ix : Option (List String)) (ns : List PNode)
    (d big : List (Nat × List PNode)) (h : build_size_map _is _ix ns d = .ok big)
    (hnd : (dkeys d).Nodup) :
    (valsJoin big).Perm (valsJoin d ++ ns.filter (sizedB _is _ix)) := by
  induction ns generalizing d with
  | nil =>
    unfold build_size_map at h
    cases h
    simp
  | cons n rest ih =>
    unfold build_size_map at h
    cases hr : read_file_size n _is _ix with
    | error e => rw [hr] at h; cases h
    | ok sz =>
      rw [hr] at h
      cases sz with
      | none =>
        rw [List.filter_cons_of_neg (by simp [sizedB, hr])]
        exact ih d h hnd
      | some v =>
        rw [List.filter_cons_of_pos (by simp [sizedB, hr])]
        have ihv := ih (dictAppend d v n) h (dictAppend_keys_nodup d v n hnd)
        refine ihv.trans ?_
        have hperm := (valsJoin_dictAppend_perm d v n hnd).append_right
          (rest.filter (sizedB _is _ix))
        refine hperm.trans ?_
        have : valsJoin d ++ n :: rest.filter (sizedB _is _ix)
            = (valsJoin d ++ [n]) ++ rest.filter (sizedB _is _ix) := by simp
        rw [this]
        exact (@List.perm_append_comm _ [n] (valsJoin d)).append_right _

theorem build_size_map_error (_is _ix : Option (List String)) (ns : List PNode)
    (d : List (Nat × List PNode)) (hex : ∃ n ∈ ns, read_file_size n _is _ix = .error ()) :
    build_size_map _is _ix ns d = .error () := by
  induction ns generalizing d with
  | nil => simp at hex
  | cons n rest ih =>
    rcases hex with ⟨m, hm, herr⟩
    unfold build_size_map
    rcases List.mem_cons.mp hm with h1 | h2
    · subst h1
      rw [herr]
    · cases hr : read_file_size n _is _ix with
      | error e => rfl
      | ok sz =>
        cases sz with
        | none => exact ih d ⟨m, h2, herr⟩
        | some v => exact ih _ ⟨m, h2, herr⟩

theorem size_map_2_eq (_is _ix : Option (List String)) (ns : List PNode) :
    size_map_2 _is _ix ns = build_size_map _is _ix ns [] := by
  suffices hgen : ∀ d,
      (match mapExcept (fun node => read_file_size node _is _ix) ns with
        | .error e => .error e
        | .ok node_sizes =>
          .ok ((ns.zip node_sizes).foldl
            (fun big p =>
              match p.2 with
              | none => big
              | some sz => dictAppend big sz p.1) d))
        = build_size_map _is _ix ns d by
    unfold size_map_2
    exact hgen []
  induction ns with
  | nil => intro d; rfl
  | cons n rest ih =>
    intro d
    unfold mapExcept build_size_map
    cases hr : read_file_size n _is _ix with
    | error e => rfl
    | ok sz =>
      cases hrest : mapExcept (fun node => read_file_size node _is _ix) rest with
      | error e =>
        cases sz with
        | none =>
          have hd := ih d
          rw [hrest] at hd
          exact hd
        | some v =>
          have hd := ih (dictAppend d v n)
          rw [hrest] at hd
          exact hd
      | ok sizes =>
        cases sz with
        | none =>
          have hd := ih d
          rw [hrest] at hd
          simpa [List.zip] using hd
        | some v =>
          have hd := ih (dictAppend d v n)
          rw [hrest] at hd
          simpa [List.zip] using hd

end SizeMapLemmas


section Md5Lemmas

variable (md5 : Bytes → Bytes) (secure : Bool)

theorem md5_inner_cons_err (n : PNode) (rest : List PNode) (m : List (Bytes × List PNode))
    (e : Unit) (hc : calc_file_md5 md5 n secure = .error e) :
    md5_inner md5 secure (n :: rest) m = .error e := by
  unfold md5_inner
  rw [hc]

theorem md5_inner_cons_ok (n : PNode) (rest : List PNode) (m : List (Bytes × List PNode))
    (k : Bytes) (hc : calc_file_md5 md5 n secure = .ok k) :
    md5_inner md5 secure (n :: rest) m
      = match md5_inner md5 secure rest (dictAppend m k n) with
        | .error e => .error e
        | .ok (ys, m2) => .ok (("r" ++ n.pid) :: ys, m2) := by
  conv_lhs => unfold md5_inner
  rw [hc]

theorem md5_inner_keys_nodup (ps : List PNode) (m m2 : List (Bytes × List PNode))
    (ys : List String) (h : md5_inner md5 secure ps m = .ok (ys, m2))
    (hnd : (dkeys m).Nodup) : (dkeys m2).Nodup := by
  induction ps generalizing m ys with
  | nil =>
    unfold md5_inner at h
    cases h
    exact hnd
  | cons n rest ih =>
    cases hc : calc_file_md5 md5 n secure with
    | error e => rw [md5_inner_cons_err md5 secure n rest m e hc] at h; cases h
    | ok k =>
      rw [md5_inner_cons_ok md5 secure n rest m k hc] at h
      cases hrec : md5_inner md5 secure rest (dictAppend m k n) with
      | error e => rw [hrec] at h; cases h
      | ok pair =>
        obtain ⟨ys2, m3⟩ := pair
        rw [hrec] at h
        cases h
        exact ih (dictAppend m k n) ys2 hrec (dictAppend_keys_nodup m k n hnd)

theorem md5_inner_bucket (ps : List PNode) (m m2 : List (Bytes × List PNode))
    (ys : List String) (h : md5_inner md5 secure ps m = .ok (ys, m2))
    (hnd : (dkeys m).Nodup) (k : Bytes) :
    bucket m2 k
      = bucket m k ++ ps.filter (fun n => decide (calc_file_md5 md5 n secure = .ok k)) := by
  induction ps generalizing m ys with
  | nil =>
    unfold md5_inner at h
    cases h
    simp
  | cons n rest ih =>
    cases hc : calc_file_md5 md5 n secure with
    | error e => rw [md5_inner_cons_err md5 secure n rest m e hc] at h; cases h
    | ok k0 =>
      rw [md5_inner_cons_ok md5 secure n rest m k0 hc] at h
      cases hrec : md5_inner md5 secure rest (dictAppend m k0 n) with
      | error e => rw [hrec] at h; cases h
      | ok pair =>
        obtain ⟨ys2, m3⟩ := pair
        rw [hrec] at h
        cases h
        have ihv := ih (dictAppend m k0 n) ys2 hrec (dictAppend_keys_nodup m k0 n hnd)
        by_cases hk : k0 = k
        · subst hk
          rw [List.filter_cons_of_pos (by simp [hc])]
          rw [ihv, bucket_dictAppend_self m k0 n hnd]
          simp
        · rw [List.filter_cons_of_neg (by simp [hc, hk])]
          rw [ihv, bucket_dictAppend_other m k0 k n (Ne.symm hk)]

theorem md5_inner_vals (ps : List PNode) (m m2 : List (Bytes × List PNode))
    (ys : List String) (h : md5_inner md5 secure ps m = .ok (ys, m2))
    (hnd : (dkeys m).Nodup) : (valsJoin m2).Perm (valsJoin m ++ ps) := by
  induction ps generalizing m ys with
  | nil =>
    unfold md5_inner at h
    cases h
    simp
  | cons n rest ih =>
    cases hc : calc_file_md5 md5 n secure with
    | error e => rw [md5_inner_cons_err md5 secure n rest m e hc] at h; cases h
    | ok k =>
      rw [md5_inner_cons_ok md5 secure n rest m k hc] at h
      cases hrec : md5_inner md5 secure rest (dictAppend m k n) with
      | error e => rw [hrec] at h; cases h
      | ok pair =>
        obtain ⟨ys2, m3⟩ := pair
        rw [hrec] at h
        cases h
        have ihv := ih (dictAppend m k n) ys2 hrec (dictAppend_keys_nodup m k n hnd)
        refine ihv.trans ?_
        have hperm := (valsJoin_dictAppend_perm m k n hnd).append_right rest
        refine hperm.trans ?_
        have heq : valsJoin m ++ n :: rest = (valsJoin m ++ [n]) ++ rest := by simp
        rw [heq]
        exact (@List.perm_append_comm _ [n] (valsJoin m)).append_right _

theorem md5_inner_yields (ps : List PNode) (m m2 : List (Bytes × List PNode))
    (ys : List String) (h : md5_inner md5 secure ps m = .ok (ys, m2)) :
    ys = ps.map (fun n => "r" ++ n.pid) := by
  induction ps generalizing m ys with
  | nil =>
    unfold md5_inner at h
    cases h
    rfl
  | cons n rest ih =>
    cases hc : calc_file_md5 md5 n secure with
    | error e => rw [md5_inner_cons_err md5 secure n rest m e hc] at h; cases h
    | ok k =>
      rw [md5_inner_cons_ok md5 secure n rest m k hc] at h
      cases hrec : md5_inner md5 secure rest (dictAppend m k n) with
      | error e => rw [hrec] at h; cases h
      | ok pair =>
        obtain ⟨ys2, m3⟩ := pair
        rw [hrec] at h
        cases h
        rw [List.map_cons, ih (dictAppend m k n) ys2 hrec]

theorem md5_inner_error (ps : List PNode) (m : List (Bytes × List PNode))
    (hex : ∃ n ∈ ps, calc_file_md5 md5 n secure = .error ()) :
    md5_inner md5 secure ps m = .error () := by
  induction ps generalizing m with
  | nil => simp at hex
  | cons n rest ih =>
    rcases hex with ⟨x, hx, herr⟩
    rcases List.mem_cons.mp hx with h1 | h2
    · subst h1
      exact md5_inner_cons_err md5 secure x rest m () herr
    · cases hc : calc_file_md5 md5 n secure with
      | error e =>
        cases e
        exact md5_inner_cons_err md5 secure n rest m () hc
      | ok k =>
        rw [md5_inner_cons_ok md5 secure n rest m k hc]
        rw [ih (dictAppend m k n) ⟨x, h2, herr⟩]
end Md5Lemmas

section Md5OuterLemmas

variable (md5 : Bytes → Bytes) (secure : Bool)

theorem md5_outer_cons_err (sz : Nat) (paths : List PNode)
    (rest : List (Nat × List PNode)) (m : List (Bytes × List PNode)) (e : Unit)
    (hin : md5_inner md5 secure paths m = .error e) :
    md5_outer md5 secure ((sz, paths) :: rest) m = .error e := by
  conv_lhs => unfold md5_outer
  rw [hin]

theorem md5_outer_cons_ok (sz : Nat) (paths : List PNode)
    (rest : List (Nat × List PNode)) (m m1 : List (Bytes × List PNode)) (ys1 : List String)
    (hin : md5_inner md5 secure paths m = .ok (ys1, m1)) :
    md5_outer md5 secure ((sz, paths) :: rest) m
      = match md5_outer md5 secure rest m1 with
        | .error e => .error e
        | .ok (ys2, m2) => .ok (ys1 ++ ys2, m2) := by
  conv_lhs => unfold md5_outer
  rw [hin]

theorem md5_outer_keys_nodup (bs : List (Nat × List PNode))
    (m m2 : List (Bytes × List PNode)) (ys : List String)
    (h : md5_outer md5 secure bs m = .ok (ys, m2)) (hnd : (dkeys m).Nodup) :
    (dkeys m2).Nodup := by
  induction bs generalizing m ys with
  | nil =>
    unfold md5_outer at h
    cases h
    exact hnd
  | cons b rest ih =>
    obtain ⟨sz, paths⟩ := b
    cases hin : md5_inner md5 secure paths m with
    | error e => rw [md5_outer_cons_err md5 secure sz paths rest m e hin] at h; cases h
    | ok pair1 =>
      obtain ⟨ys1, m1⟩ := pair1
      rw [md5_outer_cons_ok md5 secure sz paths rest m m1 ys1 hin] at h
      cases hrec : md5_outer md5 secure rest m1 with
      | error e => rw [hrec] at h; cases h
      | ok pair2 =>
        obtain ⟨ys2, m3⟩ := pair2
        rw [hrec] at h
        cases h
        exact ih m1 ys2 hrec (md5_inner_keys_nodup md5 secure paths m m1 ys1 hin hnd)

theorem md5_outer_bucket (bs : List (Nat × List PNode))
    (m m2 : List (Bytes × List PNode)) (ys : List String)
    (h : md5_outer md5 secure bs m = .ok (ys, m2)) (hnd : (dkeys m).Nodup) (k : Bytes) :
    bucket m2 k
      = bucket m k
        ++ (bs.flatMap Prod.snd).filter
          (fun n => decide (calc_file_md5 md5 n secure = .ok k)) := by
  induction bs generalizing m ys with
  | nil =>
    unfold md5_outer at h
    cases h
    simp
  | cons b rest ih =>
    obtain ⟨sz, paths⟩ := b
    cases hin : md5_inner md5 secure paths m with
    | error e => rw [md5_outer_cons_err md5 secure sz paths rest m e hin] at h; cases h
    | ok pair1 =>
      obtain ⟨ys1, m1⟩ := pair1
      rw [md5_outer_cons_ok md5 secure sz paths rest m m1 ys1 hin] at h
      cases hrec : md5_outer md5 secure rest m1 with
      | error e => rw [hrec] at h; cases h
      | ok pair2 =>
        obtain ⟨ys2, m3⟩ := pair2
        rw [hrec] at h
        cases h
        have h1 := md5_inner_bucket md5 secure paths m m1 ys1 hin hnd k
        have h2 := ih m1 ys2 hrec (md5_inner_keys_nodup md5 secure paths m m1 ys1 hin hnd)
        rw [h2, h1]
        simp [List.filter_append]

theorem md5_outer_vals (bs : List (Nat × List PNode))
    (m m2 : List (Bytes × List PNode)) (ys : List String)
    (h : md5_outer md5 secure bs m = .ok (ys, m2)) (hnd : (dkeys m).Nodup) :
    (valsJoin m2).Perm (valsJoin m ++ bs.flatMap Prod.snd) := by
  induction bs generalizing m ys with
  | nil =>
    unfold md5_outer at h
    cases h
    simp
  | cons b rest ih =>
    obtain ⟨sz, paths⟩ := b
    cases hin : md5_inner md5 secure paths m with
    | error e => rw [md5_outer_cons_err md5 secure sz paths rest m e hin] at h; cases h
    | ok pair1 =>
      obtain ⟨ys1, m1⟩ := pair1
      rw [md5_outer_cons_ok md5 secure sz paths rest m m1 ys1 hin] at h
      cases hrec : md5_outer md5 secure rest m1 with
      | error e => rw [hrec] at h; cases h
      | ok pair2 =>
        obtain ⟨ys2, m3⟩ := pair2
        rw [hrec] at h
        cases h
        have h1 := md5_inner_vals md5 secure paths m m1 ys1 hin hnd
        have h2 := ih m1 ys2 hrec (md5_inner_keys_nodup md5 secure paths m m1 ys1 hin hnd)
        refine h2.trans ?_
        have := h1.append_right (rest.flatMap Prod.snd)
        simp only [List.flatMap_cons, List.append_assoc] at this ⊢
        exact this

theorem md5_outer_yields (bs : List (Nat × List PNode))
    (m m2 : List (Bytes × List PNode)) (ys : List String)
    (h : md5_outer md5 secure bs m = .ok (ys, m2)) :
    ys = (bs.flatMap Prod.snd).map (fun n => "r" ++ n.pid) := by
  induction bs generalizing m ys with
  | nil =>
    unfold md5_outer at h
    cases h
    rfl
  | cons b rest ih =>
    obtain ⟨sz, paths⟩ := b
    cases hin : md5_inner md5 secure paths m with
    | error e => rw [md5_outer_cons_err md5 secure sz paths rest m e hin] at h; cases h
    | ok pair1 =>
      obtain ⟨ys1, m1⟩ := pair1
      rw [md5_outer_cons_ok md5 secure sz paths rest m m1 ys1 hin] at h
      cases hrec : md5_outer md5 secure rest m1 with
      | error e => rw [hrec] at h; cases h
      | ok pair2 =>
        obtain ⟨ys2, m3⟩ := pair2
        rw [hrec] at h
        cases h
        rw [md5_inner_yields md5 secure paths m m1 ys1 hin, ih m1 ys2 hrec]
        simp

theorem md5_outer_error (bs : List (Nat × List PNode)) (m : List (Bytes × List PNode))
    (hex : ∃ n ∈ bs.flatMap Prod.snd, calc_file_md5 md5 n secure = .error ()) :
    md5_outer md5 secure bs m = .error () := by
  induction bs generalizing m with
  | nil => simp at hex
  | cons b rest ih =>
    obtain ⟨sz, paths⟩ := b
    rcases hex with ⟨x, hx, herr⟩
    simp only [List.flatMap_cons, List.mem_append] at hx
    rcases hx with hx1 | hx2
    · exact md5_outer_cons_err md5 secure sz paths rest m ()
        (md5_inner_error md5 secure paths m ⟨x, hx1, herr⟩)
    · cases hin : md5_inner md5 secure paths m with
      | error e =>
        cases e
        exact md5_outer_cons_err md5 secure sz paths rest m () hin
      | ok pair1 =>
        obtain ⟨ys1, m1⟩ := pair1
        rw [md5_outer_cons_ok md5 secure sz paths rest m m1 ys1 hin]
        rw [ih m1 ⟨x, hx2, herr⟩]
end Md5OuterLemmas

section Md5Outer2Lemmas

variable (md5 : Bytes → Bytes) (secure : Bool)

theorem md5_outer_2_cons_err (sz : Nat) (paths : List PNode)
    (rest : List (Nat × List PNode)) (c : Nat) (m : List (Bytes × List PNode)) (e : Unit)
    (hmp : mapExcept (fun x => calc_file_md5 md5 x secure) paths = .error e) :
    md5_outer_2 md5 secure ((sz, paths) :: rest) c m = .error e := by
  conv_lhs => unfold md5_outer_2
  rw [hmp]

theorem md5_outer_2_cons_ok (sz : Nat) (paths : List PNode)
    (rest : List (Nat × List PNode)) (c : Nat) (m : List (Bytes × List PNode))
    (k_list : List Bytes)
    (hmp : mapExcept (fun x => calc_file_md5 md5 x secure) paths = .ok k_list) :
    md5_outer_2 md5 secure ((sz, paths) :: rest) c m
      = match md5_outer_2 md5 secure rest (if 0 < c then c - 1 else 100)
          ((paths.zip k_list).foldl (fun acc p => dictAppend acc p.2 p.1) m) with
        | .error e => .error e
        | .ok (ys2, m2) =>
          .ok ((if 0 < c then [] else ["bytes " ++ toString sz]) ++ ys2, m2) := by
  conv_lhs => unfold md5_outer_2
  rw [hmp]

theorem md5_inner_of_mapExcept_error (ps : List PNode) (m : List (Bytes × List PNode))
    (e : Unit) (hmp : mapExcept (fun x => calc_file_md5 md5 x secure) ps = .error e) :
    md5_inner md5 secure ps m = .error e := by
  induction ps generalizing m with
  | nil => unfold mapExcept at hmp; cases hmp
  | cons n rest ih =>
    unfold mapExcept at hmp
    cases hc : calc_file_md5 md5 n secure with
    | error e0 =>
      rw [hc] at hmp
      cases hmp
      exact md5_inner_cons_err md5 secure n rest m e0 hc
    | ok k =>
      rw [hc] at hmp
      cases hrest : mapExcept (fun x => calc_file_md5 md5 x secure) rest with
      | error e1 =>
        rw [hrest] at hmp
        cases hmp
        rw [md5_inner_cons_ok md5 secure n rest m k hc]
        rw [ih (dictAppend m k n) hrest]
      | ok ks => rw [hrest] at hmp; cases hmp

theorem md5_inner_of_mapExcept_ok (ps : List PNode) (m : List (Bytes × List PNode))
    (ks : List Bytes) (hmp : mapExcept (fun x => calc_file_md5 md5 x secure) ps = .ok ks) :
    ∃ ys, md5_inner md5 secure ps m
      = .ok (ys, (ps.zip ks).foldl (fun acc p => dictAppend acc p.2 p.1) m) := by
  induction ps generalizing m ks with
  | nil =>
    unfold mapExcept at hmp
    cases hmp
    exact ⟨[], rfl⟩
  | cons n rest ih =>
    unfold mapExcept at hmp
    cases hc : calc_file_md5 md5 n secure with
    | error e0 => rw [hc] at hmp; cases hmp
    | ok k =>
      rw [hc] at hmp
      cases hrest : mapExcept (fun x => calc_file_md5 md5 x secure) rest with
      | error e1 => rw [hrest] at hmp; cases hmp
      | ok ks0 =>
        rw [hrest] at hmp
        cases hmp
        obtain ⟨ys0, hys0⟩ := ih (dictAppend m k n) ks0 hrest
        refine ⟨("r" ++ n.pid) :: ys0, ?_⟩
        rw [md5_inner_cons_ok md5 secure n rest m k hc]
        rw [hys0]
        simp [List.zip_cons_cons]

theorem md5_outer_2_snd (bs : List (Nat × List PNode)) (c : Nat)
    (m m2 : List (Bytes × List PNode)) (ys : List String)
    (h : md5_outer_2 md5 secure bs c m = .ok (ys, m2)) :
    ∃ ys2, md5_outer md5 secure bs m = .ok (ys2, m2) := by
  induction bs generalizing c m ys with
  | nil =>
    unfold md5_outer_2 at h
    cases h
    exact ⟨[], rfl⟩
  | cons b rest ih =>
    obtain ⟨sz, paths⟩ := b
    cases hmp : mapExcept (fun x => calc_file_md5 md5 x secure) paths with
    | error e => rw [md5_outer_2_cons_err md5 secure sz paths rest c m e hmp] at h; cases h
    | ok k_list =>
      rw [md5_outer_2_cons_ok md5 secure sz paths rest c m k_list hmp] at h
      cases hrec : md5_outer_2 md5 secure rest (if 0 < c then c - 1 else 100)
          ((paths.zip k_list).foldl (fun acc p => dictAppend acc p.2 p.1) m) with
      | error e => rw [hrec] at h; cases h
      | ok pair2 =>
        obtain ⟨ysr, m3⟩ := pair2
        rw [hrec] at h
        cases h
        obtain ⟨ysi, hysi⟩ := md5_inner_of_mapExcept_ok md5 secure paths m k_list hmp
        obtain ⟨ysro, hysro⟩ := ih _ _ ysr hrec
        refine ⟨ysi ++ ysro, ?_⟩
        rw [md5_outer_cons_ok md5 secure sz paths rest m _ ysi hysi]
        rw [hysro]

theorem md5_outer_2_yield_count (bs : List (Nat × List PNode)) (c : Nat)
    (m m2 : List (Bytes × List PNode)) (ys : List String)
    (h : md5_outer_2 md5 secure bs c m = .ok (ys, m2)) (hc : c ≤ 100) :
    ys.length = (bs.length + (100 - c)) / 101 := by
  induction bs generalizing c m ys with
  | nil =>
    unfold md5_outer_2 at h
    cases h
    simp
    omega
  | cons b rest ih =>
    obtain ⟨sz, paths⟩ := b
    cases hmp : mapExcept (fun x => calc_file_md5 md5 x secure) paths with
    | error e => rw [md5_outer_2_cons_err md5 secure sz paths rest c m e hmp] at h; cases h
    | ok k_list =>
      rw [md5_outer_2_cons_ok md5 secure sz paths rest c m k_list hmp] at h
      cases hrec : md5_outer_2 md5 secure rest (if 0 < c then c - 1 else 100)
          ((paths.zip k_list).foldl (fun acc p => dictAppend acc p.2 p.1) m) with
      | error e => rw [hrec] at h; cases h
      | ok pair2 =>
        obtain ⟨ysr, m3⟩ := pair2
        rw [hrec] at h
        cases h
        by_cases hpos : 0 < c
        · rw [if_pos hpos] at hrec
          have := ih (c - 1) _ ysr hrec (by omega)
          rw [if_pos hpos, List.nil_append, this]
          simp only [List.length_cons]
          omega
        · rw [if_neg hpos] at hrec
          have := ih 100 _ ysr hrec (by omega)
          rw [if_neg hpos]
          simp only [List.length_append, List.length_cons, this]
          simp only [List.length_cons, List.length_nil]
          omega
end Md5Outer2Lemmas

section EngineHelpers

theorem find_duplicates_eq (md5 : Bytes → Bytes) (nodes : List PNode)
    (igS igX : Option (List String)) (secure : Bool) :
    find_duplicates md5 nodes igS igX secure
      = match build_size_map (normIgnore igS) (normIgnore igX) nodes [] with
        | .error e => .error e
        | .ok big =>
          match md5_outer md5 secure (big.filter fun kv => decide (1 < kv.2.length)) [] with
          | .error e => .error e
          | .ok (ys, md5_big) =>
            .ok (ys, md5_big.filter fun kv => decide (1 < kv.2.length)) := by
  rfl

theorem find_duplicates_2_eq (md5 : Bytes → Bytes) (nodes : List PNode)
    (igS igX : Option (List String)) (secure : Bool) :
    find_duplicates_2 md5 nodes igS igX secure
      = match build_size_map (normIgnore igS) (normIgnore igX) nodes [] with
        | .error e => .error e
        | .ok big =>
          match md5_outer_2 md5 secure (big.filter fun kv => decide (1 < kv.2.length)) 100 [] with
          | .error e => .error e
          | .ok (ys, md5_big) =>
            .ok (ys, md5_big.filter fun kv => decide (1 < kv.2.length)) := by
  unfold find_duplicates_2
  simp only [size_map_2_eq]

theorem find_duplicates_ok_parts (md5 : Bytes → Bytes) (nodes : List PNode)
    (igS igX : Option (List String)) (secure : Bool) (ys : List String)
    (rep : List (Bytes × List PNode))
    (h : find_duplicates md5 nodes igS igX secure = .ok (ys, rep)) :
    ∃ big md5_big,
      build_size_map (normIgnore igS) (normIgnore igX) nodes [] = .ok big
      ∧ md5_outer md5 secure (big.filter fun kv => decide (1 < kv.2.length)) [] = .ok (ys, md5_big)
      ∧ rep = md5_big.filter fun kv => decide (1 < kv.2.length) := by
  rw [find_duplicates_eq] at h
  cases hb : build_size_map (normIgnore igS) (normIgnore igX) nodes [] with
  | error e => rw [hb] at h; cases h
  | ok big =>
    rw [hb] at h
    have h2 : (match md5_outer md5 secure (big.filter fun kv => decide (1 < kv.2.length)) [] with
        | Except.error e => Except.error e
        | Except.ok (ys, md5_big) =>
          Except.ok (ys, md5_big.filter fun kv => decide (1 < kv.2.length)))
        = Except.ok (ys, rep) := h
    cases ho : md5_outer md5 secure (big.filter fun kv => decide (1 < kv.2.length)) [] with
    | error e => rw [ho] at h2; cases h2
    | ok pair =>
      obtain ⟨ys0, md5_big⟩ := pair
      rw [ho] at h2
      cases h2
      exact ⟨big, md5_big, rfl, ho, rfl⟩

theorem find_duplicates_2_ok_parts (md5 : Bytes → Bytes) (nodes : List PNode)
    (igS igX : Option (List String)) (secure : Bool) (ys : List String)
    (rep : List (Bytes × List PNode))
    (h : find_duplicates_2 md5 nodes igS igX secure = .ok (ys, rep)) :
    ∃ big md5_big,
      build_size_map (normIgnore igS) (normIgnore igX) nodes [] = .ok big
      ∧ md5_outer_2 md5 secure (big.filter fun kv => decide (1 < kv.2.length)) 100 []
          = .ok (ys, md5_big)
      ∧ rep = md5_big.filter fun kv => decide (1 < kv.2.length) := by
  rw [find_duplicates_2_eq] at h
  cases hb : build_size_map (normIgnore igS) (normIgnore igX) nodes [] with
  | error e => rw [hb] at h; cases h
  | ok big =>
    rw [hb] at h
    have h2 : (match md5_outer_2 md5 secure (big.filter fun kv => decide (1 < kv.2.length)) 100 [] with
        | Except.error e => Except.error e
        | Except.ok (ys, md5_big) =>
          Except.ok (ys, md5_big.filter fun kv => decide (1 < kv.2.length)))
        = Except.ok (ys, rep) := h
    cases ho : md5_outer_2 md5 secure (big.filter fun kv => decide (1 < kv.2.length)) 100 [] with
    | error e => rw [ho] at h2; cases h2
    | ok pair =>
      obtain ⟨ys0, md5_big⟩ := pair
      rw [ho] at h2
      cases h2
      exact ⟨big, md5_big, rfl, ho, rfl⟩

end EngineHelpers

section ListHelpers

theorem valsJoin_filter_sublist {κ α : Type} (d : List (κ × List α)) (p : κ × List α → Bool) :
    (valsJoin (d.filter p)).Sublist (valsJoin d) := by
  induction d with
  | nil => simp [valsJoin]
  | cons kv rest ih =>
    by_cases hp : p kv = true
    · rw [List.filter_cons_of_pos hp]
      simpa [valsJoin] using ih.append_left kv.2
    · rw [List.filter_cons_of_neg (by simpa using hp)]
      simp only [valsJoin, List.flatMap_cons]
      exact ih.trans (List.sublist_append_right kv.2 _)

theorem two_mem_le_length {α : Type} (l : List α) (a b : α)
    (ha : a ∈ l) (hb : b ∈ l) (hab : a ≠ b) : 2 ≤ l.length := by
  match l with
  | [] => simp at ha
  | [x] =>
    simp at ha hb
    exact absurd (ha.trans hb.symm) hab
  | x :: y :: rest => simp

theorem filter_eq_singleton_of_unique {α : Type} (l : List α) (p : α → Bool) (n : α)
    (hnd : l.Nodup) (hn : n ∈ l) (hp : p n = true)
    (huniq : ∀ m ∈ l, p m = true → m = n) : l.filter p = [n] := by
  induction l with
  | nil => simp at hn
  | cons hd rest ih =>
    simp only [List.nodup_cons] at hnd
    rcases List.mem_cons.mp hn with h1 | h2
    · subst h1
      rw [List.filter_cons_of_pos hp]
      have : rest.filter p = [] := by
        rw [List.filter_eq_nil_iff]
        intro m hm hpm
        exact hnd.1 ((huniq m (List.mem_cons_of_mem _ hm) hpm) ▸ hm)
      rw [this]
    · have hne : hd ≠ n := by
        intro hcon
        exact hnd.1 (hcon ▸ h2)
      have hphd : ¬ p hd = true := by
        intro hcon
        exact hne (huniq hd (List.mem_cons_self hd rest) hcon)
      rw [List.filter_cons_of_neg (by simpa using hphd)]
      exact ih hnd.2 h2 (fun m hm hpm => huniq m (List.mem_cons_of_mem _ hm) hpm)

end ListHelpers

theorem calc_file_md5_file_eq (md5 : Bytes → Bytes) (node : PNode) (c : Bytes)
    (secure : Bool) (h : node.kind = .file c) :
    calc_file_md5 md5 node secure
      = .ok (md5 (if secure then c
          else if c.length > MD5_FILE_SIZE then
            c.take MD5_HEAD_SIZE ++ c.drop (c.length - MD5_TAIL_SIZE)
          else c)) := by
  unfold calc_file_md5
  rw [h]

/-- C1: for every file and every secure flag, `calc_file_md5` returns the
16-byte digest (a digest of 16 bytes whenever the digest primitive
returns 16 bytes) of: the whole content when `secure` is true; the whole
content when `secure` is false and the length is at most
`MD5_FILE_SIZE`; and the first `MD5_HEAD_SIZE` bytes followed by the
last `MD5_TAIL_SIZE` bytes when `secure` is false and the length
strictly exceeds `MD5_FILE_SIZE`. In particular a file of exactly
`MD5_FILE_SIZE` bytes is digested whole. -/
theorem calc_file_md5_covers (md5 : Bytes → Bytes) (node : PNode) (c : Bytes)
    (secure : Bool) (h : node.kind = .file c) :
    (secure = true → calc_file_md5 md5 node secure = .ok (md5 c))
    ∧ (secure = false → c.length ≤ MD5_FILE_SIZE →
        calc_file_md5 md5 node secure = .ok (md5 c))
    ∧ (secure = false → MD5_FILE_SIZE < c.length →
        calc_file_md5 md5 node secure
          = .ok (md5 (c.take MD5_HEAD_SIZE ++ c.drop (c.length - MD5_TAIL_SIZE))))
    ∧ (secure = false → c.length = MD5_FILE_SIZE →
        calc_file_md5 md5 node secure = .ok (md5 c))
    ∧ ((∀ b, (md5 b).length = 16) →
        ∀ r, calc_file_md5 md5 node secure = .ok r → r.length = 16) := by
  refine ⟨?_, ?_, ?_, ?_, ?_⟩
  · intro hs
    rw [calc_file_md5_file_eq md5 node c secure h, hs]
    simp
  · intro hs hle
    rw [calc_file_md5_file_eq md5 node c secure h, hs]
    simp [Nat.not_lt.mpr hle]
  · intro hs hgt
    rw [calc_file_md5_file_eq md5 node c secure h, hs]
    simp [Nat.lt_iff_add_one_le.mp hgt, hgt]
  · intro hs heq
    rw [calc_file_md5_file_eq md5 node c secure h, hs]
    simp [heq]
  · intro h16 r hr
    rw [calc_file_md5_file_eq md5 node c secure h] at hr
    cases hr
    exact h16 _

/-- Witness for C1 at a concrete 3-byte file in non-secure mode, with a
fixed-width digest stub. -/
theorem calc_file_md5_covers_witness :
    calc_file_md5 (fun _ => List.replicate 16 0)
        { pid := "/a", stem := "a", suffix := "", kind := .file [1, 2, 3] } false
      = .ok (List.replicate 16 0) := by
  exact (calc_file_md5_covers (fun _ => List.replicate 16 0)
    { pid := "/a", stem := "a", suffix := "", kind := .file [1, 2, 3] } [1, 2, 3] false
    rfl).2.1 rfl (by norm_num [MD5_FILE_SIZE, MD5_HEAD_SIZE, MD5_TAIL_SIZE])

/-- C4 counterexample: a path that exists as neither file nor directory
and whose `stat` fails (a broken symlink) makes `read_file_size` raise
(`Except.error`), not return the `None` marker the claim promises. -/
theorem read_file_size_broken_symlink_cex :
    read_file_size { pid := "/broken", stem := "broken", suffix := "", kind := .other none }
        none none
      = .error ()
    ∧ (Except.error () : Except Unit (Option Nat)) ≠ .ok none := by
  exact ⟨rfl, by decide⟩

/-- C4 amended: `read_file_size` returns `None` — and the sizing phase
skips the node — for directories and for nodes matching an ignored stem
or suffix; but for a non-skipped path that exists as neither file nor
directory it attempts `stat()`: the call raises when `stat` fails
(broken symlink) and returns the stat size (socket, device file)
otherwise, rather than returning `None`. -/
theorem read_file_size_amended (node : PNode) (igS igX : Option (List String)) :
    (∀ sz, node.kind = .dir sz → read_file_size node igS igX = .ok none)
    ∧ (skip_me node igS igX = true → read_file_size node igS igX = .ok none)
    ∧ (node.kind = .other none → skip_me node igS igX = false →
        read_file_size node igS igX = .error ())
    ∧ (∀ sz, node.kind = .other (some sz) → skip_me node igS igX = false →
        read_file_size node igS igX = .ok (some sz))
    ∧ (read_file_size node igS igX = .ok none →
        ∀ ns big, build_size_map igS igX ns [] = .ok big →
          ∀ kv ∈ big, node ∉ kv.2) := by
  refine ⟨?_, ?_, ?_, ?_, ?_⟩
  · intro sz hk
    unfold read_file_size
    rw [if_pos ?_]
    unfold skip_me
    simp [hk, EntryKind.isDir]
  · intro hskip
    unfold read_file_size
    rw [if_pos hskip]
  · intro hk hskip
    unfold read_file_size
    rw [if_neg (by simp [hskip])]
    unfold st_size
    rw [hk]
  · intro sz hk hskip
    unfold read_file_size
    rw [if_neg (by simp [hskip])]
    unfold st_size
    rw [hk]
  · intro hnone ns big hbig kv hkv hmem
    have hkeys := build_size_map_keys_nodup igS igX ns [] big hbig (by simp [dkeys])
    have hbk := build_size_map_bucket igS igX ns [] big hbig (by simp [dkeys]) kv.1
    rw [bucket_of_mem big kv hkv hkeys] at hbk
    have hmem2 : node ∈ ns.filter
        (fun n => decide (read_file_size n igS igX = .ok (some kv.1))) := by
      rw [hbk] at hmem
      simpa [bucket] using hmem
    have hcontra := List.of_mem_filter hmem2
    rw [hnone] at hcontra
    simp at hcontra

/-- Witness for C4 amended: a directory and a stat-able socket-like
node, with no ignore lists. -/
theorem read_file_size_amended_witness :
    read_file_size { pid := "/d", stem := "d", suffix := "", kind := .dir 4096 } none none
      = .ok none
    ∧ read_file_size { pid := "/s", stem := "s", suffix := "", kind := .other (some 7) }
        none none
      = .ok (some 7) := by
  constructor
  · exact (read_file_size_amended
      { pid := "/d", stem := "d", suffix := "", kind := .dir 4096 } none none).1 4096 rfl
  · exact (read_file_size_amended
      { pid := "/s", stem := "s", suffix := "", kind := .other (some 7) } none none).2.2.2.1
      7 rfl rfl

/-- C5 counterexample: with an empty (but provided) include list the
function does not raise, yet it does not return a node set either — the
Python body falls through every `return` and yields `None`. -/
theorem filter_by_suffixes_empty_include_cex :
    filter_by_suffixes [{ pid := "/a.mp4", stem := "a", suffix := ".mp4", kind := .file [] }]
        (some []) none
      = .ok none
    ∧ (Except.ok (none : Option (List PNode)) : Except Unit (Option (List PNode)))
        ≠ .ok (some []) := by
  exact ⟨rfl, by decide⟩

/-- C5 amended: `filter_by_suffixes` raises, before inspecting any node,
exactly when both or neither of include/exclude are provided; with
exactly one nonempty list provided it returns the set of non-directory
nodes whose lowercased suffix is (resp. is not) in the lowercased list;
with exactly one EMPTY list provided it raises nothing but returns the
`None` marker instead of a set. `filter_by_suffixes_expected` is this
outcome table. -/
theorem filter_by_suffixes_characterization (nodes : List PNode)
    (incl excl : Option (List String)) :
    filter_by_suffixes nodes incl excl = filter_by_suffixes_expected nodes incl excl := by
  cases incl with
  | none =>
    cases excl with
    | none => rfl
    | some l => cases l with | nil => rfl | cons s t => rfl
  | some li =>
    cases li with
    | nil =>
      cases excl with
      | none => rfl
      | some l => rfl
    | cons s t =>
      cases excl with
      | none => rfl
      | some l => rfl

/-- C7: an uncaught failure in the sizing phase (a `read_file_size` that
raises) or in the hashing phase (a `calc_file_md5` that raises on a file
the engine hashes) propagates out of `find_duplicates`: the engine
returns `Except.error`, so the `call_back(r_md5_big)` line is never
reached and the completion callback is never invoked. -/
theorem find_duplicates_io_error (md5 : Bytes → Bytes) (nodes : List PNode)
    (igS igX : Option (List String)) (secure : Bool)
    (hex : (∃ n ∈ nodes, read_file_size n (normIgnore igS) (normIgnore igX) = .error ())
      ∨ (∃ big, build_size_map (normIgnore igS) (normIgnore igX) nodes [] = .ok big
          ∧ ∃ n ∈ (big.filter fun kv => decide (1 < kv.2.length)).flatMap Prod.snd,
              calc_file_md5 md5 n secure = .error ())) :
    find_duplicates md5 nodes igS igX secure = .error () := by
  rw [find_duplicates_eq]
  rcases hex with h1 | ⟨big, hbig, h2⟩
  · rw [build_size_map_error (normIgnore igS) (normIgnore igX) nodes [] h1]
  · rw [hbig]
    have houter := md5_outer_error md5 secure
      (big.filter fun kv => decide (1 < kv.2.length)) [] h2
    show (match md5_outer md5 secure (List.filter (fun kv => decide (1 < kv.2.length)) big) [] with
      | Except.error e => Except.error e
      | Except.ok (ys, md5_big) =>
        Except.ok (ys, List.filter (fun kv => decide (1 < kv.2.length)) md5_big))
      = Except.error ()
    rw [houter]

/-- Witness for C7: one broken-symlink node makes the sizing phase raise
and the whole engine abort. -/
theorem find_duplicates_io_error_witness :
    find_duplicates (fun b => b)
        [{ pid := "/broken", stem := "broken", suffix := "", kind := .other none }]
        none none false
      = .error () := by
  exact find_duplicates_io_error (fun b => b)
    [{ pid := "/broken", stem := "broken", suffix := "", kind := .other none }]
    none none false
    (Or.inl ⟨{ pid := "/broken", stem := "broken", suffix := "", kind := .other none },
      by simp, rfl⟩)

section MoreEngineHelpers

theorem hashed_files_ok_parts (nodes : List PNode) (igS igX : Option (List String))
    (hf : List PNode) (h : hashed_files nodes igS igX = .ok hf) :
    ∃ big, build_size_map igS igX nodes [] = .ok big
      ∧ hf = (big.filter fun kv => decide (1 < kv.2.length)).flatMap Prod.snd := by
  unfold hashed_files at h
  cases hb : build_size_map igS igX nodes [] with
  | error e => rw [hb] at h; cases h
  | ok big =>
    rw [hb] at h
    cases h
    exact ⟨big, rfl, rfl⟩

theorem surviving_buckets_ok_parts (nodes : List PNode) (igS igX : Option (List String))
    (B : Nat) (h : surviving_buckets nodes igS igX = .ok B) :
    ∃ big, build_size_map igS igX nodes [] = .ok big
      ∧ B = (big.filter fun kv => decide (1 < kv.2.length)).length := by
  unfold surviving_buckets at h
  cases hb : build_size_map igS igX nodes [] with
  | error e => rw [hb] at h; cases h
  | ok big =>
    rw [hb] at h
    cases h
    exact ⟨big, rfl, rfl⟩

theorem calc_file_md5_empty (md5 : Bytes → Bytes) (node : PNode) (secure : Bool)
    (h : node.kind = .file []) : calc_file_md5 md5 node secure = .ok (md5 []) := by
  rw [calc_file_md5_file_eq md5 node [] secure h]
  cases secure <;> simp [MD5_FILE_SIZE, MD5_HEAD_SIZE, MD5_TAIL_SIZE]

/-- All members of the ok-result report of `find_duplicates` come from
the hashed candidate list, which itself is a permutation of the values
of the filtered size map. -/
theorem report_vals_perm (md5 : Bytes → Bytes) (secure : Bool)
    (big : List (Nat × List PNode)) (md5_big : List (Bytes × List PNode)) (ys : List String)
    (ho : md5_outer md5 secure (big.filter fun kv => decide (1 < kv.2.length)) []
      = .ok (ys, md5_big)) :
    (valsJoin md5_big).Perm
      ((big.filter fun kv => decide (1 < kv.2.length)).flatMap Prod.snd) := by
  have h := md5_outer_vals md5 secure (big.filter fun kv => decide (1 < kv.2.length))
    [] md5_big ys ho (by simp [dkeys])
  simpa [valsJoin] using h

end MoreEngineHelpers

/-- C2: a candidate file whose byte length is unique among the sized
candidates is never passed to `calc_file_md5` (it is not in
`hashed_files`, the exact argument list of the hashing phase of both
engines) and appears in no group of the report either engine delivers
to its completion callback. -/
theorem size_unique_never_hashed (md5 : Bytes → Bytes) (nodes : List PNode)
    (igS igX : Option (List String)) (secure : Bool) (n : PNode) (s : Nat)
    (hf : List PNode) (ys ys2 : List String) (rep rep2 : List (Bytes × List PNode))
    (hnd : nodes.Nodup) (hn : n ∈ nodes)
    (hs : read_file_size n (normIgnore igS) (normIgnore igX) = .ok (some s))
    (huniq : ∀ m ∈ nodes, m ≠ n →
        read_file_size m (normIgnore igS) (normIgnore igX) ≠ .ok (some s))
    (hhf : hashed_files nodes (normIgnore igS) (normIgnore igX) = .ok hf)
    (h1 : find_duplicates md5 nodes igS igX secure = .ok (ys, rep))
    (h2 : find_duplicates_2 md5 nodes igS igX secure = .ok (ys2, rep2)) :
    n ∉ hf ∧ (∀ kv ∈ rep, n ∉ kv.2) ∧ (∀ kv ∈ rep2, n ∉ kv.2) := by
  obtain ⟨big, hbig, hfeq⟩ := hashed_files_ok_parts nodes _ _ hf hhf
  have hkeys := build_size_map_keys_nodup _ _ nodes [] big hbig (by simp [dkeys])
  have hnotin : n ∉ (big.filter fun kv => decide (1 < kv.2.length)).flatMap Prod.snd := by
    intro hmem
    rcases List.mem_flatMap.mp hmem with ⟨kv, hkvf, hnkv⟩
    have hkvbig := List.mem_of_mem_filter hkvf
    have hlen : (1 : Nat) < kv.2.length := by
      have := List.of_mem_filter hkvf
      simpa using this
    have hbk := build_size_map_bucket _ _ nodes [] big hbig (by simp [dkeys]) kv.1
    rw [bucket_of_mem big kv hkvbig hkeys] at hbk
    simp only [bucket, List.find?_nil, Option.map_none, Option.getD_none,
      List.nil_append] at hbk
    have hsz : read_file_size n (normIgnore igS) (normIgnore igX) = .ok (some kv.1) := by
      have := List.of_mem_filter (hbk ▸ hnkv)
      simpa using this
    have hk1 : kv.1 = s := by
      rw [hs] at hsz
      cases hsz
      rfl
    subst hk1
    have hsingle : nodes.filter
        (fun m => decide (read_file_size m (normIgnore igS) (normIgnore igX)
          = .ok (some kv.1))) = [n] := by
      apply filter_eq_singleton_of_unique nodes _ n hnd hn (by simp [hs])
      intro m hm hpm
      by_contra hne
      exact huniq m hm hne (by simpa using hpm)
    rw [hsingle] at hbk
    rw [hbk] at hlen
    simp at hlen
  refine ⟨hfeq ▸ hnotin, ?_, ?_⟩
  · obtain ⟨big1, md5_big, hbig1, ho, hrep⟩ := find_duplicates_ok_parts md5 nodes igS igX
      secure ys rep h1
    rw [hbig] at hbig1
    cases hbig1
    intro kv hkv hnkv
    have hperm := report_vals_perm md5 secure big md5_big ys ho
    have : n ∈ valsJoin md5_big := by
      apply List.mem_flatMap.mpr
      exact ⟨kv, List.mem_of_mem_filter (hrep ▸ hkv), hnkv⟩
    exact hnotin (hperm.mem_iff.mp this)
  · obtain ⟨big1, md5_big, hbig1, ho2, hrep⟩ := find_duplicates_2_ok_parts md5 nodes igS igX
      secure ys2 rep2 h2
    rw [hbig] at hbig1
    cases hbig1
    obtain ⟨ysx, ho⟩ := md5_outer_2_snd md5 secure _ 100 [] md5_big ys2 ho2
    intro kv hkv hnkv
    have hperm := report_vals_perm md5 secure big md5_big ysx ho
    have : n ∈ valsJoin md5_big := by
      apply List.mem_flatMap.mpr
      exact ⟨kv, List.mem_of_mem_filter (hrep ▸ hkv), hnkv⟩
    exact hnotin (hperm.mem_iff.mp this)

/-- Witness for C2: of two files with distinct sizes neither is hashed
and the report is empty. -/
theorem size_unique_never_hashed_witness :
    wa ∉ ([] : List PNode)
    ∧ (∀ kv ∈ ([] : List (Bytes × List PNode)), wa ∉ kv.2)
    ∧ (∀ kv ∈ ([] : List (Bytes × List PNode)), wa ∉ kv.2) := by
  exact size_unique_never_hashed (fun bts => bts)
    [wa, { pid := "/c", stem := "c", suffix := "", kind := .file [1, 2] }]
    none none false wa 1 [] [] [] [] []
    (by decide) (by decide) (by decide)
    (by decide)
    (by decide) (by decide) (by decide)

theorem report_members_nodup (md5 : Bytes → Bytes) (secure : Bool) (nodes : List PNode)
    (igS igX : Option (List String)) (big : List (Nat × List PNode))
    (md5_big : List (Bytes × List PNode)) (ys : List String)
    (hnd : nodes.Nodup)
    (hbig : build_size_map igS igX nodes [] = .ok big)
    (ho : md5_outer md5 secure (big.filter fun kv => decide (1 < kv.2.length)) []
      = .ok (ys, md5_big)) :
    (valsJoin md5_big).Nodup
    ∧ (∀ x ∈ valsJoin md5_big, x ∈ nodes) := by
  have hbperm := build_size_map_vals igS igX nodes [] big hbig (by simp [dkeys])
  simp only [valsJoin, List.flatMap_nil, List.nil_append] at hbperm
  have hsub : ((big.filter fun kv => decide (1 < kv.2.length)).flatMap Prod.snd).Sublist
      (valsJoin big) := valsJoin_filter_sublist big _
  have hperm := report_vals_perm md5 secure big md5_big ys ho
  have hnodupF : (nodes.filter (sizedB igS igX)).Nodup := hnd.filter _
  have hvb : (valsJoin big).Nodup := (hbperm.nodup_iff).mpr hnodupF
  have hhn : ((big.filter fun kv => decide (1 < kv.2.length)).flatMap Prod.snd).Nodup :=
    hvb.sublist hsub
  refine ⟨(hperm.nodup_iff).mpr hhn, ?_⟩
  intro x hx
  have hx2 := hperm.mem_iff.mp hx
  have hx3 := hsub.mem hx2
  have hx4 := hbperm.mem_iff.mp (by simpa [valsJoin] using hx3)
  exact List.mem_of_mem_filter hx4

/-- C10: the report either engine delivers to the completion callback
satisfies: every entry has at least two member paths; every member path
belongs to the input node set; the member lists of distinct entries are
pairwise disjoint and each input path occurs at most once across the
whole report; and the two engines deliver the same report. -/
theorem duplicate_report_invariants (md5 : Bytes → Bytes) (nodes : List PNode)
    (igS igX : Option (List String)) (secure : Bool) (ys ys2 : List String)
    (rep rep2 : List (Bytes × List PNode))
    (hnd : nodes.Nodup)
    (h1 : find_duplicates md5 nodes igS igX secure = .ok (ys, rep))
    (h2 : find_duplicates_2 md5 nodes igS igX secure = .ok (ys2, rep2)) :
    (∀ kv ∈ rep, 2 ≤ kv.2.length)
    ∧ (∀ kv ∈ rep, ∀ x ∈ kv.2, x ∈ nodes)
    ∧ (rep.flatMap Prod.snd).Nodup
    ∧ rep.Pairwise (fun kv1 kv2 => ∀ x ∈ kv1.2, x ∉ kv2.2)
    ∧ rep2 = rep := by
  obtain ⟨big, md5_big, hbig, ho, hrep⟩ := find_duplicates_ok_parts md5 nodes igS igX
    secure ys rep h1
  obtain ⟨hvn, hvmem⟩ := report_members_nodup md5 secure nodes _ _ big md5_big ys hnd hbig ho
  have hrepnodup : (rep.flatMap Prod.snd).Nodup := by
    have hsub : (rep.flatMap Prod.snd).Sublist (valsJoin md5_big) := by
      rw [hrep]
      exact valsJoin_filter_sublist md5_big _
    exact hvn.sublist hsub
  refine ⟨?_, ?_, hrepnodup, ?_, ?_⟩
  · intro kv hkv
    have := List.of_mem_filter (hrep ▸ hkv)
    simpa using this
  · intro kv hkv x hx
    apply hvmem
    apply List.mem_flatMap.mpr
    exact ⟨kv, List.mem_of_mem_filter (hrep ▸ hkv), hx⟩
  · have hjoin : (rep.flatMap Prod.snd) = (rep.map Prod.snd).flatten := by
      simp [List.flatMap_def]
    rw [hjoin] at hrepnodup
    have := (List.nodup_flatten.mp hrepnodup).2
    have hpw := (List.pairwise_map.mp this)
    apply hpw.imp
    intro kv1 kv2 hdisj x hx1 hx2
    exact hdisj hx1 hx2
  · obtain ⟨big2, md5_big2, hbig2, ho2, hrep2⟩ := find_duplicates_2_ok_parts md5 nodes igS igX
      secure ys2 rep2 h2
    rw [hbig] at hbig2
    cases hbig2
    obtain ⟨ysx, hox⟩ := md5_outer_2_snd md5 secure _ 100 [] md5_big2 ys2 ho2
    rw [ho] at hox
    cases hox
    rw [hrep2, hrep]

/-- Witness for C10 at two one-byte duplicates: one group of the two
nodes, identical for both engines. -/
theorem duplicate_report_invariants_witness :
    (∀ kv ∈ [([0], [wa, wb])], 2 ≤ (kv : Bytes × List PNode).2.length)
    ∧ (∀ kv ∈ [([0], [wa, wb])], ∀ x ∈ (kv : Bytes × List PNode).2, x ∈ [wa, wb])
    ∧ (([([0], [wa, wb])] : List (Bytes × List PNode)).flatMap Prod.snd).Nodup
    ∧ ([([0], [wa, wb])] : List (Bytes × List PNode)).Pairwise
        (fun kv1 kv2 => ∀ x ∈ kv1.2, x ∉ kv2.2)
    ∧ [([0], [wa, wb])] = [([0], [wa, wb])] := by
  exact duplicate_report_invariants (fun bts => bts) [wa, wb] none none false
    ["r" ++ wa.pid, "r" ++ wb.pid] [] [([0], [wa, wb])] [([0], [wa, wb])]
    (by decide) (by decide) (by decide)

theorem bucket_nil {κ α : Type} [DecidableEq κ] (k : κ) :
    bucket ([] : List (κ × List α)) k = [] := rfl

/-- C6: when the input holds two or more zero-length candidate files
(not ignored), the report `find_duplicates_2` delivers to the completion
callback contains a group — keyed by the digest of the empty byte string
— holding all of those empty files: the size-0 bucket is retained and
not confused with the `None` no-size marker. -/
theorem empty_files_grouped (md5 : Bytes → Bytes) (nodes : List PNode)
    (igS igX : Option (List String)) (secure : Bool) (a b : PNode)
    (ys : List String) (rep : List (Bytes × List PNode))
    (ha : a ∈ nodes) (hb : b ∈ nodes) (hab : a ≠ b)
    (hka : a.kind = .file []) (hkb : b.kind = .file [])
    (hsa : read_file_size a (normIgnore igS) (normIgnore igX) = .ok (some 0))
    (hsb : read_file_size b (normIgnore igS) (normIgnore igX) = .ok (some 0))
    (h2 : find_duplicates_2 md5 nodes igS igX secure = .ok (ys, rep)) :
    ∃ kv ∈ rep, kv.1 = md5 []
      ∧ 2 ≤ kv.2.length
      ∧ ∀ n ∈ nodes, n.kind = .file [] →
          read_file_size n (normIgnore igS) (normIgnore igX) = .ok (some 0) →
          n ∈ kv.2 := by
  obtain ⟨big, md5_big, hbig, ho2, hrep⟩ := find_duplicates_2_ok_parts md5 nodes igS igX
    secure ys rep h2
  obtain ⟨ysx, ho⟩ := md5_outer_2_snd md5 secure _ 100 [] md5_big ys ho2
  -- The size-0 bucket of the size map.
  have hb0 := build_size_map_bucket _ _ nodes [] big hbig (by simp [dkeys]) 0
  rw [bucket_nil, List.nil_append] at hb0
  set E := nodes.filter
    (fun m => decide (read_file_size m (normIgnore igS) (normIgnore igX) = .ok (some 0)))
    with hE
  have haE : a ∈ E := List.mem_filter.mpr ⟨ha, by simp [hsa]⟩
  have hbE : b ∈ E := List.mem_filter.mpr ⟨hb, by simp [hsb]⟩
  have hElen : 2 ≤ E.length := two_mem_le_length E a b haE hbE hab
  have hEne : E ≠ [] := by
    intro hcon
    rw [hcon] at hElen
    simp at hElen
  have hmem0 : ((0 : Nat), E) ∈ big := by
    have := mem_of_bucket_ne_nil big 0 (by rw [hb0]; exact hEne)
    rwa [hb0] at this
  have hmemF : ((0 : Nat), E) ∈ big.filter (fun kv => decide (1 < kv.2.length)) :=
    List.mem_filter.mpr ⟨hmem0, by simp; omega⟩
  -- Every non-ignored empty file is hashed with digest `md5 []`.
  have hob := md5_outer_bucket md5 secure (big.filter fun kv => decide (1 < kv.2.length))
    [] md5_big ysx ho (by simp [dkeys]) (md5 [])
  rw [bucket_nil, List.nil_append] at hob
  set L := ((big.filter fun kv => decide (1 < kv.2.length)).flatMap Prod.snd).filter
    (fun n => decide (calc_file_md5 md5 n secure = .ok (md5 []))) with hL
  have hinL : ∀ n ∈ nodes, n.kind = .file [] →
      read_file_size n (normIgnore igS) (normIgnore igX) = .ok (some 0) → n ∈ L := by
    intro n hn hkn hsn
    apply List.mem_filter.mpr
    constructor
    · apply List.mem_flatMap.mpr
      refine ⟨((0 : Nat), E), hmemF, ?_⟩
      exact List.mem_filter.mpr ⟨hn, by simp [hsn]⟩
    · simp [calc_file_md5_empty md5 n secure hkn]
  have haL : a ∈ L := hinL a ha hka hsa
  have hbL : b ∈ L := hinL b hb hkb hsb
  have hLlen : 2 ≤ L.length := two_mem_le_length L a b haL hbL hab
  have hLne : L ≠ [] := by
    intro hcon
    rw [hcon] at hLlen
    simp at hLlen
  have hmemL : (md5 [], L) ∈ md5_big := by
    have := mem_of_bucket_ne_nil md5_big (md5 []) (by rw [hob]; exact hLne)
    rwa [hob] at this
  refine ⟨(md5 [], L), ?_, rfl, hLlen, hinL⟩
  rw [hrep]
  exact List.mem_filter.mpr ⟨hmemL, by simp; omega⟩

/-- Witness for C6: two empty files produce a single group holding both. -/
theorem empty_files_grouped_witness :
    ∃ kv ∈ [(([] : Bytes), [{ pid := "/e1", stem := "e1", suffix := "", kind := .file [] },
        { pid := "/e2", stem := "e2", suffix := "", kind := .file [] }])],
      kv.1 = (fun bts => bts) ([] : Bytes)
      ∧ 2 ≤ kv.2.length
      ∧ ∀ n ∈ [{ pid := "/e1", stem := "e1", suffix := "", kind := .file [] },
          { pid := "/e2", stem := "e2", suffix := "", kind := (EntryKind.file []) }],
          n.kind = .file [] →
          read_file_size n (normIgnore none) (normIgnore none) = .ok (some 0) →
          n ∈ kv.2 := by
  exact empty_files_grouped (fun bts => bts)
    [{ pid := "/e1", stem := "e1", suffix := "", kind := .file [] },
     { pid := "/e2", stem := "e2", suffix := "", kind := .file [] }]
    none none false
    { pid := "/e1", stem := "e1", suffix := "", kind := .file [] }
    { pid := "/e2", stem := "e2", suffix := "", kind := .file [] }
    [] [(([] : Bytes), [{ pid := "/e1", stem := "e1", suffix := "", kind := .file [] },
        { pid := "/e2", stem := "e2", suffix := "", kind := .file [] }])]
    (by decide) (by decide) (by decide) (by decide) (by decide)
    (by decide) (by decide) (by decide)

set_option maxRecDepth 8000 in
/-- C3 counterexample: 100 candidate files (50 duplicate pairs of byte
length 1) are all hashed by the signature phase, yet `find_duplicates_2`
emits no progress event at all: its `bag_counter` counts size buckets —
here a single one — not files, and only fires on every 101st bucket. -/
theorem find_duplicates_2_cadence_cex :
    (hashed_files c3_nodes none none).map List.length = Except.ok 100
    ∧ (find_duplicates_2 (fun bts => bts) c3_nodes none none false).map Prod.fst
        = Except.ok ([] : List String) := by
  constructor
  · rfl
  · rfl

/-- C3 amended: during the signature phase `find_duplicates` yields one
event per hashed file (the string `r` + path, emitted before hashing
it); `find_duplicates_2` yields one event per 101 surviving size buckets
processed — `B / 101` events for `B` buckets, the first when the 101st
bucket is reached — counting buckets, not files. -/
theorem progress_cadence_amended (md5 : Bytes → Bytes) (nodes : List PNode)
    (igS igX : Option (List String)) (secure : Bool) (ys ys2 : List String)
    (rep rep2 : List (Bytes × List PNode)) (hf : List PNode) (B : Nat)
    (h1 : find_duplicates md5 nodes igS igX secure = .ok (ys, rep))
    (hhf : hashed_files nodes (normIgnore igS) (normIgnore igX) = .ok hf)
    (h2 : find_duplicates_2 md5 nodes igS igX secure = .ok (ys2, rep2))
    (hB : surviving_buckets nodes (normIgnore igS) (normIgnore igX) = .ok B) :
    ys = hf.map (fun n => "r" ++ n.pid) ∧ ys2.length = B / 101 := by
  obtain ⟨big, md5_big, hbig, ho, hrep⟩ := find_duplicates_ok_parts md5 nodes igS igX
    secure ys rep h1
  obtain ⟨bigf, hbigf, hfeq⟩ := hashed_files_ok_parts nodes _ _ hf hhf
  rw [hbig] at hbigf
  cases hbigf
  obtain ⟨big2, md5_big2, hbig2, ho2, hrep2⟩ := find_duplicates_2_ok_parts md5 nodes igS igX
    secure ys2 rep2 h2
  rw [hbig] at hbig2
  cases hbig2
  obtain ⟨bigB, hbigB, hBeq⟩ := surviving_buckets_ok_parts nodes _ _ B hB
  rw [hbig] at hbigB
  cases hbigB
  constructor
  · rw [md5_outer_yields md5 secure _ [] md5_big ys ho, hfeq]
  · rw [md5_outer_2_yield_count md5 secure _ 100 [] md5_big2 ys2 ho2 (by omega), hBeq]
    omega

/-- Witness for C3 amended, at two one-byte duplicate files: one bucket,
two per-file yields from the fallback engine, zero events from the batch
engine. -/
theorem progress_cadence_amended_witness :
    ("r" ++ wa.pid) :: ["r" ++ wb.pid] = [wa, wb].map (fun n => "r" ++ n.pid)
    ∧ ([] : List String).length = 1 / 101 := by
  exact progress_cadence_amended (fun bts => bts) [wa, wb] none none false
    (("r" ++ wa.pid) :: ["r" ++ wb.pid]) [] [([0], [wa, wb])] [([0], [wa, wb])]
    [wa, wb] 1 (by decide) (by decide) (by decide) (by decide)

section WalkerHelpers

theorem toFinset_eq_of_perm (l1 l2 : List Nat) (h : l1.Perm l2) :
    l1.toFinset = l2.toFinset := by
  rw [← List.toFinset_coe, ← List.toFinset_coe, Multiset.coe_eq_coe.mpr h]

theorem chain_le_of_le (a b : Nat) (l : List Nat)
    (h : List.Chain (· ≤ ·) b l) (hab : a ≤ b) : List.Chain (· ≤ ·) a l := by
  cases l with
  | nil => exact List.Chain.nil
  | cons c cs =>
    rcases List.chain_cons.mp h with ⟨hbc, hrest⟩
    exact List.Chain.cons (le_trans hab hbc) hrest

theorem chain'_of_chain (a : Nat) (l : List Nat)
    (h : List.Chain (· ≤ ·) a l) : List.Chain' (· ≤ ·) l := by
  induction l generalizing a with
  | nil => simp
  | cons c cs ih =>
    rcases List.chain_cons.mp h with ⟨hac, hrest⟩
    cases cs with
    | nil => simp
    | cons d ds =>
      rcases List.chain_cons.mp hrest with ⟨hcd, hrest2⟩
      exact List.chain'_cons.mpr ⟨hcd, ih c hrest⟩

theorem getLast?_cons_of_ne_nil (a : Nat) (l : List Nat) (h : l ≠ []) :
    (a :: l).getLast? = l.getLast? := by
  cases l with
  | nil => exact absurd rfl h
  | cons b bs => simp [List.getLast?_cons_cons]

theorem childV2_append (a b : List FsTree) :
    childV2 (a ++ b) = childV2 a ++ childV2 b := by
  induction a with
  | nil => simp [childV2]
  | cons hd ts ih =>
    cases hd with
    | file i => simp [childV2, ih]
    | other i => simp [childV2, ih]
    | dir i ok cs => simp [childV2, ih]

theorem visitedScanL_append (a b : List FsTree) :
    visitedScanL (a ++ b) = visitedScanL a ++ visitedScanL b := by
  induction a with
  | nil => simp [visitedScanL]
  | cons hd ts ih => simp [visitedScanL, ih]

theorem countScanL_append (a b : List FsTree) :
    countScanL (a ++ b) = countScanL a + countScanL b := by
  induction a with
  | nil => simp [countScanL]
  | cons hd ts ih => simp [countScanL, ih]; omega

end WalkerHelpers

section WalkerBridge

theorem childV2_bridge (cs : List FsTree) :
    ((cs.filterMap (fun c => match c with | .file i => some i | _ => none) : List Nat)
        : Multiset Nat)
      + ((cs.filter (fun c => match c with | .dir _ _ _ => true | _ => false)).flatMap visited2
        : List Nat)
      = (childV2 cs : List Nat) := by
  induction cs with
  | nil => simp [childV2]
  | cons hd ts ih =>
    cases hd with
    | file i =>
      simp only [List.filterMap_cons, List.filter_cons, childV2]
      rw [if_neg Bool.false_ne_true]
      simp only [← Multiset.cons_coe, Multiset.cons_add, ih]
    | other i =>
      simp only [List.filterMap_cons, List.filter_cons, childV2]
      rw [if_neg Bool.false_ne_true]
      exact ih
    | dir i ok cs2 =>
      simp only [List.filterMap_cons, List.filter_cons, childV2]
      rw [if_pos trivial]
      simp only [List.flatMap_cons, ← Multiset.coe_add, ← ih]
      abel

theorem visited2_bridge (t : FsTree) :
    (([t.info] : List Nat) : Multiset Nat)
      + (scanDirFiles t : List Nat)
      + ((scanDirDirs t).flatMap visited2 : List Nat)
      = (visited2 t : List Nat) := by
  cases t with
  | file i => simp [FsTree.info, scanDirFiles, scanDirDirs, visited2]
  | other i => simp [FsTree.info, scanDirFiles, scanDirDirs, visited2]
  | dir i ok cs =>
    cases ok with
    | false => simp [FsTree.info, scanDirFiles, scanDirDirs, visited2]
    | true =>
      simp only [FsTree.info, scanDirFiles, scanDirDirs, visited2, if_pos]
      simp only [← Multiset.cons_coe, Multiset.coe_singleton]
      rw [← childV2_bridge cs]
      simp only [← Multiset.singleton_add]
      abel

theorem frontier_bridge (l : List FsTree) :
    ((l.map FsTree.info : List Nat) : Multiset Nat)
      + (l.flatMap scanDirFiles : List Nat)
      + ((l.flatMap scanDirDirs).flatMap visited2 : List Nat)
      = (l.flatMap visited2 : List Nat) := by
  induction l with
  | nil => simp
  | cons t ts ih =>
    simp only [List.map_cons, List.flatMap_cons, List.flatMap_append]
    simp only [← Multiset.coe_add, ← Multiset.cons_coe]
    rw [← ih, ← visited2_bridge t]
    simp only [← Multiset.singleton_add, Multiset.coe_nil, add_zero, Multiset.coe_singleton]
    abel

end WalkerBridge

section WalkerSize

theorem tlistsize_append (a b : List FsTree) :
    tlistsize (a ++ b) = tlistsize a + tlistsize b := by
  induction a with
  | nil => simp [tlistsize]
  | cons x xs ih => simp [tlistsize, ih]; omega

theorem tsize_pos (t : FsTree) : 1 ≤ tsize t := by
  cases t <;> simp [tsize]

theorem tlistsize_filter_le (ms : List FsTree) (p : FsTree → Bool) :
    tlistsize (ms.filter p) ≤ tlistsize ms := by
  induction ms with
  | nil => simp
  | cons x xs ih =>
    by_cases hx : p x = true
    · rw [List.filter_cons_of_pos hx]
      simp only [tlistsize]
      omega
    · rw [List.filter_cons_of_neg (by simpa using hx)]
      simp only [tlistsize]
      have := tsize_pos x
      omega

theorem tlistsize_scanDirDirs_le (u : FsTree) : tlistsize (scanDirDirs u) + 1 ≤ tsize u := by
  cases u with
  | file i => simp [scanDirDirs, tsize, tlistsize]
  | other i => simp [scanDirDirs, tsize, tlistsize]
  | dir i ok cs =>
    cases ok with
    | false => simp [scanDirDirs, tsize, tlistsize]
    | true =>
      simp only [scanDirDirs, tsize]
      have := tlistsize_filter_le cs (fun c => match c with | .dir _ _ _ => true | _ => false)
      omega

theorem tlistsize_next_le (l : List FsTree) :
    tlistsize (l.flatMap scanDirDirs) + l.length ≤ tlistsize l := by
  induction l with
  | nil => simp [tlistsize]
  | cons x xs ih =>
    simp only [List.flatMap_cons, tlistsize_append, tlistsize, List.length_cons]
    have := tlistsize_scanDirDirs_le x
    omega

end WalkerSize

section Scan2Lemmas

theorem scan2Go_nodes_aux : ∀ (n : Nat) (F : List FsTree) (fs ds : List Nat),
    tlistsize F ≤ n →
    (((scan2Go F fs ds).2.2 : List Nat) : Multiset Nat) + ((scan2Go F fs ds).2.1 : List Nat)
      = ((ds : List Nat) : Multiset Nat) + (fs : List Nat) + (F.flatMap visited2 : List Nat) := by
  intro n
  induction n with
  | zero =>
    intro F fs ds hF
    cases F with
    | nil => simp [scan2Go]
    | cons t ts =>
      exfalso
      have h1 := tsize_pos t
      simp [tlistsize] at hF
      omega
  | succ n ihn =>
    intro F fs ds hF
    cases F with
    | nil => simp [scan2Go]
    | cons t ts =>
      rw [scan2Go]
      simp only []
      have hle : tlistsize ((t :: ts).flatMap scanDirDirs) ≤ n := by
        have h1 := tlistsize_next_le (t :: ts)
        simp only [List.length_cons] at h1
        omega
      rw [ihn _ _ _ hle]
      rw [← frontier_bridge (t :: ts)]
      simp only [← Multiset.coe_add]
      abel

theorem scan2Go_nodes (F : List FsTree) (fs ds : List Nat) :
    (((scan2Go F fs ds).2.2 : List Nat) : Multiset Nat) + ((scan2Go F fs ds).2.1 : List Nat)
      = ((ds : List Nat) : Multiset Nat) + (fs : List Nat) + (F.flatMap visited2 : List Nat) :=
  scan2Go_nodes_aux (tlistsize F) F fs ds (le_refl _)

theorem scan2Go_chain_aux : ∀ (n : Nat) (F : List FsTree) (fs ds : List Nat),
    tlistsize F ≤ n →
    List.Chain (· ≤ ·) (fs.length + ds.length) (scan2Go F fs ds).1 := by
  intro n
  induction n with
  | zero =>
    intro F fs ds hF
    cases F with
    | nil => rw [scan2Go]; exact List.Chain.nil
    | cons t ts =>
      exfalso
      have h1 := tsize_pos t
      simp [tlistsize] at hF
      omega
  | succ n ihn =>
    intro F fs ds hF
    cases F with
    | nil => rw [scan2Go]; exact List.Chain.nil
    | cons t ts =>
      rw [scan2Go]
      simp only []
      have hle : tlistsize ((t :: ts).flatMap scanDirDirs) ≤ n := by
        have h1 := tlistsize_next_le (t :: ts)
        simp only [List.length_cons] at h1
        omega
      refine List.Chain.cons ?_ (ihn _ _ _ hle)
      simp only [List.length_append]
      omega

theorem scan2Go_chain (F : List FsTree) (fs ds : List Nat) :
    List.Chain (· ≤ ·) (fs.length + ds.length) (scan2Go F fs ds).1 :=
  scan2Go_chain_aux (tlistsize F) F fs ds (le_refl _)

theorem scan2Go_ne_nil (F : List FsTree) (fs ds : List Nat) (h : F ≠ []) :
    (scan2Go F fs ds).1 ≠ [] := by
  cases F with
  | nil => exact absurd rfl h
  | cons t ts =>
    rw [scan2Go]
    simp

theorem scan2Go_last_aux : ∀ (n : Nat) (F : List FsTree) (fs ds : List Nat),
    tlistsize F ≤ n → F ≠ [] →
    (scan2Go F fs ds).1.getLast?
      = some ((scan2Go F fs ds).2.1.length + (scan2Go F fs ds).2.2.length) := by
  intro n
  induction n with
  | zero =>
    intro F fs ds hF hne
    cases F with
    | nil => exact absurd rfl hne
    | cons t ts =>
      exfalso
      have h1 := tsize_pos t
      simp [tlistsize] at hF
      omega
  | succ n ihn =>
    intro F fs ds hF hne
    cases F with
    | nil => exact absurd rfl hne
    | cons t ts =>
      rw [scan2Go]
      simp only []
      by_cases hnext : (t :: ts).flatMap scanDirDirs = []
      · rw [hnext]
        rw [scan2Go]
        simp
      · have hle : tlistsize ((t :: ts).flatMap scanDirDirs) ≤ n := by
          have h1 := tlistsize_next_le (t :: ts)
          simp only [List.length_cons] at h1
          omega
        have hne2 := scan2Go_ne_nil ((t :: ts).flatMap scanDirDirs)
          (fs ++ (t :: ts).flatMap scanDirFiles) (ds ++ (t :: ts).map FsTree.info) hnext
        rw [getLast?_cons_of_ne_nil _ _ hne2]
        exact ihn _ _ _ hle hnext

theorem scan2Go_last (F : List FsTree) (fs ds : List Nat) (h : F ≠ []) :
    (scan2Go F fs ds).1.getLast?
      = some ((scan2Go F fs ds).2.1.length + (scan2Go F fs ds).2.2.length) :=
  scan2Go_last_aux (tlistsize F) F fs ds (le_refl _) h

theorem scan_2_nodes (root : FsTree) : (scan_2 root).2 = (visited2 root).toFinset := by
  unfold scan_2
  apply toFinset_eq_of_perm
  apply Multiset.coe_eq_coe.mp
  have h := scan2Go_nodes [root] [] []
  simp only [List.flatMap_cons, List.flatMap_nil, List.append_nil, Multiset.coe_nil] at h
  simp only [← Multiset.coe_add]
  rw [h]
  abel

end Scan2Lemmas

section ScanLemmas

theorem scanGo_total_aux : ∀ (n : Nat) (F : List FsTree) (tot : Nat) (acc : List Nat),
    tlistsize F ≤ n → (scanGo F tot acc).2.1 = tot + countScanL F := by
  intro n
  induction n with
  | zero =>
    intro F tot acc hF
    cases F with
    | nil => simp [scanGo, countScanL]
    | cons t ts =>
      exfalso
      have h1 := tsize_pos t
      simp [tlistsize] at hF
      omega
  | succ n ihn =>
    intro F tot acc hF
    cases F with
    | nil => simp [scanGo, countScanL]
    | cons t ts =>
      simp only [tlistsize] at hF
      cases t with
      | file i =>
        rw [scanGo]
        simp only []
        rw [ihn ts (tot + 1) (acc ++ [i]) (by simp [tsize] at hF; omega)]
        simp only [countScanL, countScan]
        omega
      | other i =>
        rw [scanGo]
        simp only []
        rw [ihn ts (tot + 1) acc (by simp [tsize] at hF; omega)]
        simp only [countScanL, countScan]
        omega
      | dir i ok cs =>
        rw [scanGo]
        simp only []
        rw [ihn (ts ++ if ok then cs else []) (tot + 1) (acc ++ [i]) ?hle]
        case hle =>
          simp only [tsize] at hF
          rw [tlistsize_append]
          cases ok with
          | false => simp [tlistsize]; omega
          | true => simp; omega
        rw [countScanL_append]
        simp only [countScanL, countScan]
        cases ok with
        | false => simp [countScanL]; omega
        | true => simp; omega

theorem scanGo_total (F : List FsTree) (tot : Nat) (acc : List Nat) :
    (scanGo F tot acc).2.1 = tot + countScanL F :=
  scanGo_total_aux (tlistsize F) F tot acc (le_refl _)

theorem scanGo_nodes_aux : ∀ (n : Nat) (F : List FsTree) (tot : Nat) (acc : List Nat),
    tlistsize F ≤ n →
    (((scanGo F tot acc).2.2 : List Nat) : Multiset Nat)
      = ((acc : List Nat) : Multiset Nat) + (visitedScanL F : List Nat) := by
  intro n
  induction n with
  | zero =>
    intro F tot acc hF
    cases F with
    | nil => simp [scanGo, visitedScanL]
    | cons t ts =>
      exfalso
      have h1 := tsize_pos t
      simp [tlistsize] at hF
      omega
  | succ n ihn =>
    intro F tot acc hF
    cases F with
    | nil => simp [scanGo, visitedScanL]
    | cons t ts =>
      simp only [tlistsize] at hF
      cases t with
      | file i =>
        rw [scanGo]
        simp only []
        rw [ihn ts (tot + 1) (acc ++ [i]) (by simp [tsize] at hF; omega)]
        simp only [visitedScanL, visitedScan]
        simp only [← Multiset.coe_add]
        abel
      | other i =>
        rw [scanGo]
        simp only []
        rw [ihn ts (tot + 1) acc (by simp [tsize] at hF; omega)]
        simp only [visitedScanL, visitedScan]
        simp

      | dir i ok cs =>
        rw [scanGo]
        simp only []
        rw [ihn (ts ++ if ok then cs else []) (tot + 1) (acc ++ [i]) ?hle]
        case hle =>
          simp only [tsize] at hF
          rw [tlistsize_append]
          cases ok with
          | false => simp [tlistsize]; omega
          | true => simp; omega
        rw [visitedScanL_append]
        simp only [visitedScanL, visitedScan]
        cases ok with
        | false =>
          simp only [visitedScanL, List.append_nil]
          simp only [← Multiset.coe_add, ← Multiset.cons_coe, ← Multiset.singleton_add,
            Multiset.coe_nil, add_zero]
          abel
        | true =>
          simp only [← Multiset.coe_add, ← Multiset.cons_coe, ← Multiset.singleton_add,
            Multiset.coe_nil, add_zero]
          abel

theorem scanGo_nodes (F : List FsTree) (tot : Nat) (acc : List Nat) :
    (((scanGo F tot acc).2.2 : List Nat) : Multiset Nat)
      = ((acc : List Nat) : Multiset Nat) + (visitedScanL F : List Nat) :=
  scanGo_nodes_aux (tlistsize F) F tot acc (le_refl _)

end ScanLemmas

section ScanChain

theorem scanGo_chain_aux : ∀ (n : Nat) (F : List FsTree) (tot : Nat) (acc : List Nat),
    tlistsize F ≤ n →
    List.Chain (· ≤ ·) tot ((scanGo F tot acc).1 ++ [(scanGo F tot acc).2.1]) := by
  intro n
  induction n with
  | zero =>
    intro F tot acc hF
    cases F with
    | nil =>
      rw [scanGo]
      exact List.Chain.cons (le_refl tot) List.Chain.nil
    | cons t ts =>
      exfalso
      have h1 := tsize_pos t
      simp [tlistsize] at hF
      omega
  | succ n ihn =>
    intro F tot acc hF
    cases F with
    | nil =>
      rw [scanGo]
      exact List.Chain.cons (le_refl tot) List.Chain.nil
    | cons t ts =>
      simp only [tlistsize] at hF
      have hstep : ∀ (F2 : List FsTree) (acc2 : List Nat), tlistsize F2 ≤ n →
          List.Chain (· ≤ ·) tot
            (((if (tot + 1) % 100 = 0 then [tot + 1] else [])
              ++ (scanGo F2 (tot + 1) acc2).1) ++ [(scanGo F2 (tot + 1) acc2).2.1]) := by
        intro F2 acc2 hF2
        have hch := ihn F2 (tot + 1) acc2 hF2
        by_cases hmod : (tot + 1) % 100 = 0
        · rw [if_pos hmod]
          simp only [List.singleton_append, List.cons_append]
          exact List.Chain.cons (by omega) hch
        · rw [if_neg hmod]
          simp only [List.nil_append]
          exact chain_le_of_le tot (tot + 1) _ hch (by omega)
      cases t with
      | file i =>
        rw [scanGo]
        simp only []
        exact hstep ts (acc ++ [i]) (by simp [tsize] at hF; omega)
      | other i =>
        rw [scanGo]
        simp only []
        exact hstep ts acc (by simp [tsize] at hF; omega)
      | dir i ok cs =>
        rw [scanGo]
        simp only []
        refine hstep (ts ++ if ok then cs else []) (acc ++ [i]) ?_
        simp only [tsize] at hF
        rw [tlistsize_append]
        cases ok with
        | false => simp [tlistsize]; omega
        | true => simp; omega

theorem scanGo_chain (F : List FsTree) (tot : Nat) (acc : List Nat) :
    List.Chain (· ≤ ·) tot ((scanGo F tot acc).1 ++ [(scanGo F tot acc).2.1]) :=
  scanGo_chain_aux (tlistsize F) F tot acc (le_refl _)

end ScanChain

section ScanTop

theorem scan_nodes (root : FsTree) : (scan root).2 = (visitedScan root).toFinset := by
  unfold scan
  apply toFinset_eq_of_perm
  apply Multiset.coe_eq_coe.mp
  have h := scanGo_nodes [root] 0 []
  simp only [visitedScanL, List.append_nil, Multiset.coe_nil] at h
  rw [h]
  simp

theorem scan_final (root : FsTree) :
    (scan root).1.getLast? = some (countScan root) := by
  unfold scan
  simp only [List.getLast?_concat]
  rw [scanGo_total [root] 0 []]
  simp [countScanL]

theorem scan_chain (root : FsTree) : List.Chain' (· ≤ ·) (scan root).1 := by
  unfold scan
  exact chain'_of_chain 0 _ (scanGo_chain [root] 0 [])

theorem scan_2_chain (root : FsTree) : List.Chain' (· ≤ ·) (scan_2 root).1 := by
  unfold scan_2
  exact chain'_of_chain 0 _ (by simpa using scan2Go_chain [root] [] [])

theorem scan_2_final (root : FsTree) :
    (scan_2 root).1.getLast?
      = some ((scan2Go [root] [] []).2.1.length + (scan2Go [root] [] []).2.2.length) := by
  unfold scan_2
  exact scan2Go_last [root] [] [] (by simp)

end ScanTop

mutual

theorem count_eq_visited : ∀ (t : FsTree), allGood t = true →
    countScan t = (visitedScan t).length
  | .file i, _ => by simp [countScan, visitedScan]
  | .other i, h => by simp [allGood] at h
  | .dir i ok cs, h => by
    cases ok with
    | false => simp [countScan, visitedScan]
    | true =>
      have hl : allGoodL cs = true := by simpa [allGood] using h
      have hrec := countL_eq_visitedL cs hl
      simp only [countScan, visitedScan, if_pos, List.length_cons]
      omega

theorem countL_eq_visitedL : ∀ (l : List FsTree), allGoodL l = true →
    countScanL l = (visitedScanL l).length
  | [], _ => by simp [countScanL, visitedScanL]
  | t :: ts, h => by
    have h1 : allGood t = true := by
      have := h
      simp [allGoodL] at this
      exact this.1
    have h2 : allGoodL ts = true := by
      have := h
      simp [allGoodL] at this
      exact this.2
    have := count_eq_visited t h1
    have := countL_eq_visitedL ts h2
    simp only [countScanL, visitedScanL, List.length_append]
    omega

end

/-- C8 counterexample: on a root that exists as neither file nor
directory, `scan` counts the node (final yield 1) but records nothing
(`all_nodes` stays empty), so the final yield differs from the
cardinality of the set passed to the completion callback. -/
theorem scan_final_yield_cex :
    (scan (.other 0)).1 = [1] ∧ (scan (.other 0)).2.card = 0 ∧ (1 : Nat) ≠ 0 := by
  refine ⟨by simp [scan, scanGo], by simp [scan, scanGo], by decide⟩

/-- C8 amended: both walkers yield a monotonically non-decreasing count
sequence; for `scan_2` the final yield equals the cardinality of the
delivered node set whenever the recorded paths are distinct; for the
fallback `scan` the same holds only under the extra assumption that
every node the walk reaches is a regular file or a directory (`allGood`)
— a reached node of any other kind is counted but never recorded, making
the final yield exceed the cardinality. -/
theorem walker_progress_amended (root : FsTree) :
    List.Chain' (· ≤ ·) (scan_2 root).1
    ∧ ((visited2 root).Nodup → (scan_2 root).1.getLast? = some (scan_2 root).2.card)
    ∧ List.Chain' (· ≤ ·) (scan root).1
    ∧ (allGood root = true → (visitedScan root).Nodup →
        (scan root).1.getLast? = some (scan root).2.card) := by
  refine ⟨scan_2_chain root, ?_, scan_chain root, ?_⟩
  · intro hnd
    rw [scan_2_final root, scan_2_nodes root, List.toFinset_card_of_nodup hnd]
    have h := scan2Go_nodes [root] [] []
    simp only [List.flatMap_cons, List.flatMap_nil, List.append_nil,
      Multiset.coe_nil] at h
    have hcard := congrArg Multiset.card h
    simp only [Multiset.card_add, Multiset.coe_card, Multiset.card_zero,
      Nat.zero_add, Nat.add_zero] at hcard
    simp only [Option.some.injEq]
    omega
  · intro hgood hnd
    rw [scan_final root, scan_nodes root, List.toFinset_card_of_nodup hnd,
      count_eq_visited root hgood]

/-- Witness for C8 amended at a directory root holding one file. -/
theorem walker_progress_amended_witness :
    List.Chain' (· ≤ ·) (scan_2 (.dir 0 true [.file 1])).1
    ∧ (scan_2 (.dir 0 true [.file 1])).1.getLast?
        = some (scan_2 (.dir 0 true [.file 1])).2.card
    ∧ List.Chain' (· ≤ ·) (scan (.dir 0 true [.file 1])).1
    ∧ (scan (.dir 0 true [.file 1])).1.getLast?
        = some (scan (.dir 0 true [.file 1])).2.card := by
  have h := walker_progress_amended (.dir 0 true [.file 1])
  exact ⟨h.1, h.2.1 (by decide), h.2.2.1, h.2.2.2 (by decide) (by decide)⟩

theorem pruneOne_shape (d : Nat) (c c2 : FsTree) (h : PruneOne d c c2) :
    ∃ j b cs cs2, c = .dir j b cs ∧ c2 = .dir j b cs2 := by
  cases h with
  | here cs => exact ⟨d, false, cs, [], rfl, rfl⟩
  | under c c2 i pre post hrec =>
    exact ⟨i, true, pre ++ c :: post, pre ++ c2 :: post, rfl, rfl⟩

theorem visited2_dir_true (i : Nat) (l : List FsTree) :
    visited2 (.dir i true l) = i :: childV2 l := by
  simp [visited2]

theorem childV2_cons_dir (j : Nat) (b : Bool) (cs post : List FsTree) :
    childV2 (FsTree.dir j b cs :: post) = visited2 (.dir j b cs) ++ childV2 post := rfl

theorem pruneOne_visited2 (d : Nat) (t t2 : FsTree) (h : PruneOne d t t2) :
    visited2 t2 = visited2 t ∧ d ∈ visited2 t := by
  induction h with
  | here cs => simp [visited2]
  | under c c2 i pre post hrec ih =>
    obtain ⟨j, b, cs, cs2, hc, hc2⟩ := pruneOne_shape d c c2 hrec
    subst hc
    subst hc2
    constructor
    · rw [visited2_dir_true, visited2_dir_true, childV2_append, childV2_append,
        childV2_cons_dir, childV2_cons_dir, ih.1]
    · rw [visited2_dir_true, childV2_append, childV2_cons_dir]
      simp only [List.mem_cons, List.mem_append]
      right
      right
      left
      exact ih.2

/-- C9: for every directory whose child listing raises during a walk —
at any depth, reachable through listable ancestors (`PruneOne`) — that
directory contributes zero descendant nodes: replacing its (never seen)
children by the empty list leaves the node set `scan_2` delivers to the
completion callback unchanged, so every other node, sibling subtrees
included, is unaffected; the failing directory itself is present in the
delivered set; and the walk terminates normally (`scan_2` is a total
function — the bare `except` of `_scan_dir` swallows the listing
error). -/
theorem failing_dir_zero_descendants (d : Nat) (t t2 : FsTree)
    (h : PruneOne d t t2) :
    (scan_2 t2).2 = (scan_2 t).2 ∧ d ∈ (scan_2 t).2 := by
  have hv := pruneOne_visited2 d t t2 h
  constructor
  · rw [scan_2_nodes, scan_2_nodes, hv.1]
  · rw [scan_2_nodes]
    exact List.mem_toFinset.mpr hv.2

/-- Witness for C9: a failing directory nested one level below the walk
root, holding one (never seen) file child. -/
theorem failing_dir_zero_descendants_witness :
    (scan_2 (.dir 0 true [.dir 1 false []])).2
      = (scan_2 (.dir 0 true [.dir 1 false [.file 2]])).2
    ∧ 1 ∈ (scan_2 (.dir 0 true [.dir 1 false [.file 2]])).2 := by
  exact failing_dir_zero_descendants 1
    (.dir 0 true [.dir 1 false [.file 2]]) (.dir 0 true [.dir 1 false []])
    (PruneOne.under 1 (.dir 1 false [.file 2]) (.dir 1 false []) 0 [] []
      (PruneOne.here 1 [.file 2]))
